import Mathlib

/-!
Verification of the upload-completion reconciliation pipeline of the
cloud-volume-manager server (src/server.js).

Strings are modelled as lists of characters (abbreviation Str), the filesystem
as an association list from full path strings to entries (a file with its byte
content, or a directory).  Association lists model the JS Map objects and the
filesystem alike; JS Map keys are unique, which theorems assume where needed.
Stateful functions of the server are embedded as pure functions threading the
filesystem (and, for the part tracker, the server state) explicitly.  The
while loops of the source, whose termination rests on the filesystem being
finite or on the read position advancing, are embedded with an explicit bound
(fuel) and lemmas show the bound chosen by the wrapper is never reached.
-/

abbrev Str := List Char

abbrev Bytes := List Nat

def trueLit : Str := "true".data

def preventLit : Str := "prevent".data

def numberLit : Str := "number".data

def postLit : Str := "POST".data

def tmpLit : Str := ".tmp".data

def jsonLit : Str := ".json".data

/-- Size of the copy buffer in the part concatenation loop (64MB), src/server.js:399. -/
def bufferSize : Nat := 64 * 1024 * 1024

/-- Timeout for incomplete parted uploads (1 hour in ms), src/server.js:144. -/
def PART_TIMEOUT : Nat := 60 * 60 * 1000

/-- Period of the orphan cleanup timer (30 minutes in ms), src/server.js:143. -/
def CLEANUP_INTERVAL : Nat := 30 * 60 * 1000

/-- Lookup in an association list (models JS Map.get and path lookup in the
filesystem). -/
def lookupKV {κ α : Type} [DecidableEq κ] : List (κ × α) → κ → Option α
  | [], _ => none
  | (k₀, v) :: rest, k => if k₀ = k then some v else lookupKV rest k

/-- Insert or update a binding (models JS Map.set; also used for filesystem
writes). -/
def setKV {κ α : Type} [DecidableEq κ] : List (κ × α) → κ → α → List (κ × α)
  | [], k, v => [(k, v)]
  | (k₀, v₀) :: rest, k, v => if k₀ = k then (k, v) :: rest else (k₀, v₀) :: setKV rest k v

/-- Remove a binding (models JS Map.delete and fs.unlinkSync). -/
def removeKV {κ α : Type} [DecidableEq κ] : List (κ × α) → κ → List (κ × α)
  | [], _ => []
  | (k₀, v₀) :: rest, k => if k₀ = k then removeKV rest k else (k₀, v₀) :: removeKV rest k

/-- A filesystem entry: a regular file with its byte content, or a directory. -/
inductive Entry where
  | file (content : Bytes)
  | dir
deriving DecidableEq

/-- The filesystem: an association list from full paths to entries. -/
abbrev FS := List (Str × Entry)

/-- Models fs.existsSync. -/
def FS.existsp (fs : FS) (p : Str) : Bool := (lookupKV fs p).isSome

/-- Models fs.renameSync: the destination is overwritten if present.  (Only
called on an existing source in the embedded code paths.) -/
def FS.rename (fs : FS) (src dst : Str) : FS :=
  match lookupKV fs src with
  | some e => setKV (removeKV fs src) dst e
  | none => fs

/-- Appending bytes to a file (models fs.writeSync on a descriptor opened for
writing, positioned at the end). -/
def FS.appendFile (fs : FS) (p : Str) (b : Bytes) : FS :=
  match lookupKV fs p with
  | some (Entry.file c) => setKV fs p (Entry.file (c ++ b))
  | _ => setKV fs p (Entry.file b)

/-- Character class of the sanitizer regex: [a-zA-Z0-9._-]. -/
def isSafeChar (c : Char) : Bool :=
  (decide ('a' ≤ c) && decide (c ≤ 'z')) || (decide ('A' ≤ c) && decide (c ≤ 'Z')) ||
    (decide ('0' ≤ c) && decide (c ≤ '9')) || c == '.' || c == '_' || c == '-'

/-- Models name.replace of the pattern matching every character outside
[a-zA-Z0-9._-] (globally) with an underscore, src/server.js:219 and 345. -/
def sanitize (name : Str) : Str := name.map (fun c => if isSafeChar c then c else '_')

/-- Models s.replace of the literal pattern of two dots (globally) with the
empty string: the regex engine scans left to right removing non-overlapping
occurrences. -/
def stripDotDot : Str → Str
  | '.' :: '.' :: rest => stripDotDot rest
  | c :: rest => c :: stripDotDot rest
  | [] => []

/-- True iff the string contains two adjacent dots. -/
def hasDotDot : Str → Bool
  | [] => false
  | [_] => false
  | a :: b :: rest => (a == '.' && b == '.') || hasDotDot (b :: rest)

/-- Models s.replace of the anchored pattern of one-or-more leading slashes
with the empty string. -/
def stripLeadingSlashes (s : Str) : Str := s.dropWhile (fun c => c == '/')

/-- Split a path string on the slash character (segments of Node path
normalization). -/
def splitSegs : Str → List Str
  | [] => [[]]
  | c :: rest =>
    if c = '/' then [] :: splitSegs rest
    else
      match splitSegs rest with
      | s :: ss => (c :: s) :: ss
      | [] => [[c]]

/-- One step of Node path normalization over segments for an absolute path:
empty and single-dot segments are dropped, a double-dot segment pops the last
kept segment (and is dropped at the root), anything else is kept. -/
def normStep (acc : List Str) (seg : Str) : List Str :=
  if seg = [] ∨ seg = ['.'] then acc
  else if seg = ['.', '.'] then acc.dropLast
  else acc ++ [seg]

/-- Node path normalization of a segment list for an absolute path. -/
def normSegs (segs : List Str) : List Str := segs.foldl normStep []

/-- Render a segment list back to a string with slash separators. -/
def renderSegs : List Str → Str
  | [] => []
  | [s] => s
  | s :: rest => s ++ '/' :: renderSegs rest

/-- Models Node path.join of an absolute directory and a relative part:
concatenate with a slash and normalize. -/
def joinNorm (a b : Str) : Str := '/' :: renderSegs (normSegs (splitSegs (a ++ '/' :: b)))

/-- Target directory resolution shared by the duplicate-check middleware and
both completion handlers (src/server.js:97-104, 224-229, 303-307): when the
path metadata is truthy, strip all double-dot substrings, strip leading
slashes, and join onto the uploads root; otherwise the root itself. -/
def resolveTargetDir (root : Str) (mpath : Option Str) : Str :=
  match mpath with
  | none => root
  | some p => if p = [] then root else joinNorm root (stripLeadingSlashes (stripDotDot p))

/-- Models path.join of a (normalized) directory and a slash-free file name,
the only shape at which the embedded code joins a name onto a directory.
(Node would additionally normalize names consisting solely of dots.) -/
def pjoin2 (dir name : Str) : Str := dir ++ '/' :: name

/-- Decimal digit to character, as JS number-to-string conversion renders
digits. -/
def digitChar : Nat → Char
  | 0 => '0'
  | 1 => '1'
  | 2 => '2'
  | 3 => '3'
  | 4 => '4'
  | 5 => '5'
  | 6 => '6'
  | 7 => '7'
  | 8 => '8'
  | _ => '9'

def natDecAux : Nat → Nat → Str
  | 0, _ => []
  | fuel + 1, n => if n < 10 then [digitChar n] else natDecAux fuel (n / 10) ++ [digitChar (n % 10)]

/-- Decimal rendering of a natural number (models JS template interpolation of
a number). -/
def natDec (n : Nat) : Str := natDecAux (n + 1) n

def digitVal (c : Char) : Nat := c.toNat - 48

/-- Decimal parsing (models JS parseInt on the canonical decimal strings the
client sends). -/
def parseDec (s : Str) : Nat := s.foldl (fun a c => a * 10 + digitVal c) 0

def parseIntNat (s : Option Str) : Nat := parseDec (s.getD [])

/-- Index of the last dot in a string, if any. -/
def lastDotIdx : Str → Option Nat
  | [] => none
  | c :: rest =>
    match lastDotIdx rest with
    | some i => some (i + 1)
    | none => if c = '.' then some 0 else none

/-- Models Node path.extname on a slash-free name: the suffix from the last
dot, empty when there is no dot, the dot is the leading character, or the name
is exactly two dots. -/
def extname (name : Str) : Str :=
  if name = ['.', '.'] then []
  else
    match lastDotIdx name with
    | none => []
    | some 0 => []
    | some i => name.drop i

/-- Models Node path.basename of a slash-free name with a suffix argument: the
suffix is stripped when it is a proper suffix of the name. -/
def basenameExt (name ext : Str) : Str :=
  if ext ≠ [] ∧ ext.length < name.length ∧ name.drop (name.length - ext.length) = ext then
    name.take (name.length - ext.length)
  else name

/-- The numbered duplicate candidate base(i)ext of src/server.js:253 and 360. -/
def numbered (base ext : Str) (i : Nat) : Str := base ++ '(' :: (natDec i ++ ')' :: ext)

/-- The while loop of the numbered-duplicate resolution (src/server.js:252-255
and 359-362): starting from the current candidate and counter, advance to the
next numbered candidate while the candidate exists on disk.  The fuel bounds
the iteration count; the wrapper passes a bound that is provably never
reached, mirroring that the JS loop terminates because the filesystem is
finite. -/
def findFreeLoop (fs : FS) (targetDir base ext : Str) : Str → Nat → Nat → Option Str
  | candidate, i, fuel =>
    if FS.existsp fs (pjoin2 targetDir candidate) then
      match fuel with
      | 0 => none
      | fuel' + 1 => findFreeLoop fs targetDir base ext (numbered base ext i) (i + 1) fuel'
    else some candidate

/-- The duplicate-filename resolution block, inlined identically in
handleSingleFileUpload (src/server.js:247-258) and concatenateAndCleanup
(src/server.js:354-365): under the number policy and an existing same-named
file, count up from 1 until a free candidate is found; otherwise the name is
unchanged. -/
def resolveDuplicate (fs : FS) (targetDir name : Str) (policy : Option Str) : Str :=
  if FS.existsp fs (pjoin2 targetDir name) ∧ policy = some numberLit then
    let ext := extname name
    let base := basenameExt name ext
    (findFreeLoop fs targetDir base ext (base ++ ext) 1 (fs.length + 2)).getD name
  else name

/-- The chunked copy loop of src/server.js:404-411: starting at the given read
position, read min(bufSize, size - position) bytes, append them, and advance,
until the position reaches the part size (or a zero-length read).  The fuel
bounds the iteration count; each iteration advances the position by at least
one byte when bufSize is positive, so part.length + 1 iterations always
suffice. -/
def copyChunksAux (bufSize : Nat) (part : Bytes) : Nat → Nat → Bytes
  | _, 0 => []
  | position, fuel + 1 =>
    if position < part.length then
      let chunk := (part.drop position).take bufSize
      if chunk.length = 0 then []
      else chunk ++ copyChunksAux bufSize part (position + chunk.length) fuel
    else []

/-- Bytes appended to the temp file for one part by the chunked copy loop. -/
def copyChunks (bufSize : Nat) (part : Bytes) : Bytes :=
  copyChunksAux bufSize part 0 (part.length + 1)

def partNotFoundMsg : Str := "Part file not found".data

def invalidPathMsg : Str := "path argument must be of type string".data

def eisdirMsg : Str := "EISDIR: illegal operation on a directory".data

def internalErrMsg : Str := "internal error".data

/-- Client-supplied per-session metadata (string values; absent keys are
none). -/
structure Meta where
  filename : Option Str := none
  filetype : Option Str := none
  path : Option Str := none
  useOriginalFilename : Option Str := none
  onDuplicateFiles : Option Str := none
  isPartedUpload : Option Str := none
  originalFilename : Option Str := none
  partNumber : Option Str := none
  totalParts : Option Str := none
  partId : Option Str := none
deriving DecidableEq

/-- A part-tracker group (src/server.js:316-322): received part numbers (a JS
Set in insertion order), the metadata of the first-seen part, the resolved
target directory, the part-number to session-id map, and the creation
timestamp. -/
structure UploadInfo where
  parts : List Nat
  metadata : Meta
  targetDir : Str
  uploadIds : List (Nat × Str)
  timestamp : Nat
deriving DecidableEq

/-- The mutable server state touched by the part pipeline: the filesystem and
the partedUploads tracker keyed by original filename. -/
structure ServerState where
  fs : FS
  parted : List (Str × UploadInfo)
deriving DecidableEq

/-- JS Set.add: append if not present (insertion order preserved). -/
def setAdd (s : List Nat) (x : Nat) : List Nat := if x ∈ s then s else s ++ [x]

/-- The write loop of concatenateAndCleanup (src/server.js:380-415): for each
part number in ascending order, look up the session id, require the staged
part file to exist, and append its bytes (read in bounded chunks) to the temp
file.  The returned trace records the part numbers in the order their bytes
were appended (specification instrumentation).  Errors carry the filesystem
at the moment of the throw. -/
def writeLoopAux (staging : Str) (uploadIds : List (Nat × Str)) (tempPath : Str) :
    FS → Nat → Nat → Except (Str × FS) (FS × List Nat)
  | fs, _, 0 => Except.ok (fs, [])
  | fs, partNumber, remaining + 1 =>
    match lookupKV uploadIds partNumber with
    | none => Except.error (invalidPathMsg, fs)
    | some uploadId =>
      let partPath := pjoin2 staging uploadId
      match lookupKV fs partPath with
      | none => Except.error (partNotFoundMsg, fs)
      | some Entry.dir => Except.error (eisdirMsg, fs)
      | some (Entry.file b) =>
        let fs1 := FS.appendFile fs tempPath (copyChunks bufferSize b)
        match writeLoopAux staging uploadIds tempPath fs1 (partNumber + 1) remaining with
        | Except.ok (fs2, trace) => Except.ok (fs2, partNumber :: trace)
        | Except.error e => Except.error e

/-- The cleanup loop of concatenateAndCleanup (src/server.js:432-448): delete
each part file and its JSON sidecar when present. -/
def cleanupLoopAux (staging : Str) (uploadIds : List (Nat × Str)) :
    FS → Nat → Nat → Except (Str × FS) FS
  | fs, _, 0 => Except.ok fs
  | fs, partNumber, remaining + 1 =>
    match lookupKV uploadIds partNumber with
    | none => Except.error (invalidPathMsg, fs)
    | some uploadId =>
      let partPath := pjoin2 staging uploadId
      let jsonPath := pjoin2 staging (uploadId ++ jsonLit)
      let fs1 := if FS.existsp fs partPath then removeKV fs partPath else fs
      let fs2 := if FS.existsp fs1 jsonPath then removeKV fs1 jsonPath else fs1
      cleanupLoopAux staging uploadIds fs2 (partNumber + 1) remaining

/-- Final file name chosen by concatenateAndCleanup (src/server.js:345-365):
the sanitized original filename after duplicate-policy resolution against the
filesystem as it is when concatenation starts. -/
def finalNameOf (fs : FS) (originalFilename : Str) (info : UploadInfo) : Str :=
  resolveDuplicate fs info.targetDir (sanitize originalFilename) info.metadata.onDuplicateFiles

def finalPathOf (fs : FS) (originalFilename : Str) (info : UploadInfo) : Str :=
  pjoin2 info.targetDir (finalNameOf fs originalFilename info)

def tempPathOf (fs : FS) (originalFilename : Str) (info : UploadInfo) : Str :=
  finalPathOf fs originalFilename info ++ tmpLit

/-- Models concatenateAndCleanup (src/server.js:344-474).  On success the
result carries the new filesystem and the trace of appended part numbers; on
any failure the catch block deletes whatever exists at the final path and at
the temp path before re-signaling, and the error carries the resulting
filesystem. -/
def concatenateAndCleanup (staging : Str) (fs : FS) (originalFilename : Str) (totalParts : Nat)
    (info : UploadInfo) : Except (Str × FS) (FS × List Nat) :=
  let finalFilePath := finalPathOf fs originalFilename info
  let tempFilePath := tempPathOf fs originalFilename info
  let fs1 := setKV fs tempFilePath (Entry.file [])
  match writeLoopAux staging info.uploadIds tempFilePath fs1 1 totalParts with
  | Except.error (msg, fsE) =>
    let fsE1 := if FS.existsp fsE finalFilePath then removeKV fsE finalFilePath else fsE
    let fsE2 := if FS.existsp fsE1 tempFilePath then removeKV fsE1 tempFilePath else fsE1
    Except.error (msg, fsE2)
  | Except.ok (fs2, trace) =>
    let fs3 := FS.rename fs2 tempFilePath finalFilePath
    match cleanupLoopAux staging info.uploadIds fs3 1 totalParts with
    | Except.error (msg, fsE) =>
      let fsE1 := if FS.existsp fsE finalFilePath then removeKV fsE finalFilePath else fsE
      let fsE2 := if FS.existsp fsE1 tempFilePath then removeKV fsE1 tempFilePath else fsE1
      Except.error (msg, fsE2)
    | Except.ok fs4 => Except.ok (fs4, trace)

/-- The mkdirSync-if-absent step guarded by truthy path metadata
(src/server.js:107-110, 232-235, 308-311).  Intermediate directories are not
tracked separately; only the target directory entry is observed by the
embedded code. -/
def ensureDirIfPath (fs : FS) (mpath : Option Str) (targetDir : Str) : FS :=
  match mpath with
  | some p => if p ≠ [] ∧ ¬ FS.existsp fs targetDir then setKV fs targetDir Entry.dir else fs
  | none => fs

inductive SingleOutcome where
  | published
  | missingStaged
deriving DecidableEq

/-- Models handleSingleFileUpload (src/server.js:218-289).  The fixed 2000ms
delay before the existence check is not modelled (time plays no role in the
embedded state); errors of the rename/delete block are swallowed by the
source after logging, and the rename cannot fail in this model. -/
def handleSingleFileUpload (root staging : Str) (fs : FS) (uploadId : Str) (meta : Meta) :
    FS × SingleOutcome :=
  let originalFilename := sanitize (meta.filename.getD [])
  let targetDir := resolveTargetDir root meta.path
  let fs1 := ensureDirIfPath fs meta.path targetDir
  let uuidFilePath := pjoin2 staging uploadId
  let jsonFilePath := pjoin2 staging (uploadId ++ jsonLit)
  let finalFilename := resolveDuplicate fs1 targetDir originalFilename meta.onDuplicateFiles
  let newFilePath := pjoin2 targetDir finalFilename
  if FS.existsp fs1 uuidFilePath then
    let fs2 := FS.rename fs1 uuidFilePath newFilePath
    let fs3 := if FS.existsp fs2 jsonFilePath then removeKV fs2 jsonFilePath else fs2
    (fs3, SingleOutcome.published)
  else (fs1, SingleOutcome.missingStaged)

/-- Models handlePartedUpload (src/server.js:294-339).  Returns the new state,
whether the completion count reached totalParts (triggering concatenation),
and the error re-signaled by concatenateAndCleanup if it failed (in which case
the tracker entry is not deleted, as the throw skips the delete). -/
def handlePartedUpload (root staging : Str) (st : ServerState) (uploadId : Str) (meta : Meta)
    (now : Nat) : ServerState × Bool × Option Str :=
  let originalFilename := meta.originalFilename.getD []
  let partNumber := parseIntNat meta.partNumber
  let totalParts := parseIntNat meta.totalParts
  let targetDir := resolveTargetDir root meta.path
  let fs1 := ensureDirIfPath st.fs meta.path targetDir
  let parted1 :=
    match lookupKV st.parted originalFilename with
    | some _ => st.parted
    | none => setKV st.parted originalFilename ⟨[], meta, targetDir, [], now⟩
  match lookupKV parted1 originalFilename with
  | none => (⟨fs1, parted1⟩, false, none)
  | some info =>
    let info' := { info with
      parts := setAdd info.parts partNumber,
      uploadIds := setKV info.uploadIds partNumber uploadId }
    let parted2 := setKV parted1 originalFilename info'
    if info'.parts.length = totalParts then
      match concatenateAndCleanup staging fs1 originalFilename totalParts info' with
      | Except.ok (fs2, _) => (⟨fs2, removeKV parted2 originalFilename⟩, true, none)
      | Except.error (msg, fs2) => (⟨fs2, parted2⟩, true, some msg)
    else (⟨fs1, parted2⟩, false, none)

/-- Run a sequence of completed parted-upload sessions (session id and
metadata per event) through handlePartedUpload, collecting per-event
(triggered, error) outcomes. -/
def runParted (root staging : Str) (now : Nat) :
    ServerState → List (Str × Meta) → ServerState × List (Bool × Option Str)
  | st, [] => (st, [])
  | st, (uploadId, meta) :: rest =>
    let r := handlePartedUpload root staging st uploadId meta now
    let rest' := runParted root staging now r.1 rest
    (rest'.1, (r.2.1, r.2.2) :: rest'.2)

/-- Deletion of one recorded part: unlink the staged part file and its JSON
sidecar when present (loop body of src/server.js:163-176). -/
def deleteOnePart (staging : Str) (fsAcc : FS) (kv : Nat × Str) : FS :=
  let partPath := pjoin2 staging kv.2
  let jsonPath := pjoin2 staging (kv.2 ++ jsonLit)
  let fs1 := if FS.existsp fsAcc partPath then removeKV fsAcc partPath else fsAcc
  if FS.existsp fs1 jsonPath then removeKV fs1 jsonPath else fs1

/-- Deletion of the staged part files and JSON sidecars of one tracker group
(src/server.js:163-176). -/
def deleteGroupFiles (staging : Str) (fs : FS) (info : UploadInfo) : FS :=
  info.uploadIds.foldl (deleteOnePart staging) fs

/-- The reaping condition of src/server.js:158: strictly older than the
timeout. -/
def isOrphaned (now : Nat) (x : Str × UploadInfo) : Bool :=
  decide (PART_TIMEOUT < now - x.2.timestamp)

/-- Models cleanupOrphanedParts (src/server.js:153-188): delete the staged
files of every group strictly older than PART_TIMEOUT, then remove those
groups from the tracker. -/
def cleanupOrphanedParts (staging : Str) (st : ServerState) (now : Nat) : ServerState :=
  let orphaned := st.parted.filter (isOrphaned now)
  { fs := orphaned.foldl (fun fsAcc x => deleteGroupFiles staging fsAcc x.2) st.fs,
    parted := st.parted.filter (fun x => ! isOrphaned now x) }

inductive GuardResult where
  | next
  | conflict
deriving DecidableEq

/-- JS truthiness of an optional string: present and nonempty. -/
def truthy (o : Option Str) : Bool :=
  match o with
  | some s => ! s.isEmpty
  | none => false

/-- Fault-injection point for one filesystem call of the duplicate-check
middleware: the call at the given static site throws when failAt selects it
(modelling an internal error during the check); the error carries the
filesystem at the throw. -/
def fsCall {α : Type} (failAt : Option Nat) (site : Nat) (fs : FS) (a : α) :
    Except (Str × FS) α :=
  if failAt = some site then Except.error (internalErrMsg, fs) else Except.ok a

/-- Target-directory step of the middleware (src/server.js:97-111): when path
metadata is truthy, resolve it, check existence (site 0) and create the
directory when absent (site 1). -/
def guardTargetStep (root : Str) (fs : FS) (m : Meta) (failAt : Option Nat) :
    Except (Str × FS) (Str × FS) :=
  match m.path with
  | some p =>
    if p = [] then Except.ok (root, fs)
    else
      let targetDir := resolveTargetDir root (some p)
      match fsCall failAt 0 fs (FS.existsp fs targetDir) with
      | Except.error e => Except.error e
      | Except.ok ex =>
        if ex then Except.ok (targetDir, fs)
        else
          match fsCall failAt 1 fs (setKV fs targetDir Entry.dir) with
          | Except.error e => Except.error e
          | Except.ok fs1 => Except.ok (targetDir, fs1)
  | none => Except.ok (root, fs)

/-- Body of the duplicate-check middleware for a POST with parsed metadata
(src/server.js:93-129): under useOriginalFilename true, truthy filename and
the prevent policy, resolve the target, then check whether the sanitized
filename exists there (site 2) and refuse with a conflict if so; in every
other case fall through to next. -/
def guardBody (root : Str) (fs : FS) (m : Meta) (failAt : Option Nat) :
    Except (Str × FS) (GuardResult × FS) :=
  if m.useOriginalFilename = some trueLit ∧ truthy m.filename ∧
      m.onDuplicateFiles = some preventLit then
    let originalFilename := sanitize (m.filename.getD [])
    match guardTargetStep root fs m failAt with
    | Except.error e => Except.error e
    | Except.ok (targetDir, fs1) =>
      match fsCall failAt 2 fs1 (FS.existsp fs1 (pjoin2 targetDir originalFilename)) with
      | Except.error e => Except.error e
      | Except.ok ex =>
        if ex then Except.ok (GuardResult.conflict, fs1)
        else Except.ok (GuardResult.next, fs1)
  else Except.ok (GuardResult.next, fs)

/-- Models the duplicate-check middleware (src/server.js:70-137): only POST
requests with a metadata header are checked; any error thrown inside the try
block falls through to next (fail open). -/
def duplicateCheck (root : Str) (fs : FS) (method : Str) (m : Option Meta)
    (failAt : Option Nat) : GuardResult × FS :=
  if method = postLit then
    match m with
    | none => (GuardResult.next, fs)
    | some meta =>
      match guardBody root fs meta failAt with
      | Except.ok r => r
      | Except.error (_, fsE) => (GuardResult.next, fsE)
  else (GuardResult.next, fs)

/-! ## Basic lemmas about association lists and paths -/

theorem lookupKV_setKV {κ α : Type} [DecidableEq κ] (m : List (κ × α)) (k k' : κ) (v : α) :
    lookupKV (setKV m k v) k' = if k = k' then some v else lookupKV m k' := by
  induction m with
  | nil => simp [setKV, lookupKV]
  | cons hd tl ih =>
    obtain ⟨k₀, v₀⟩ := hd
    simp only [setKV]
    by_cases h : k₀ = k
    · subst h
      simp only [if_pos rfl, lookupKV]
      by_cases h' : k₀ = k'
      · subst h'
        simp
      · simp [h']
    · rw [if_neg h]
      simp only [lookupKV]
      by_cases h' : k₀ = k'
      · subst h'
        have hne : ¬ k = k₀ := fun hk => h hk.symm
        simp [hne]
      · simp [h', ih]

theorem lookupKV_removeKV {κ α : Type} [DecidableEq κ] (m : List (κ × α)) (k k' : κ) :
    lookupKV (removeKV m k) k' = if k = k' then none else lookupKV m k' := by
  induction m with
  | nil => simp [removeKV, lookupKV]
  | cons hd tl ih =>
    obtain ⟨k₀, v₀⟩ := hd
    simp only [removeKV]
    by_cases h : k₀ = k
    · subst h
      rw [if_pos rfl, ih]
      by_cases h' : k₀ = k'
      · subst h'
        simp
      · simp [lookupKV, h']
    · rw [if_neg h]
      simp only [lookupKV]
      by_cases h' : k₀ = k'
      · subst h'
        have hne : ¬ k = k₀ := fun hk => h hk.symm
        simp [hne]
      · simp [h', ih]

theorem setKV_lookup_self {κ α : Type} [DecidableEq κ] (m : List (κ × α)) (k : κ) (v : α)
    (h : lookupKV m k = some v) : setKV m k v = m := by
  induction m with
  | nil => simp [lookupKV] at h
  | cons hd tl ih =>
    obtain ⟨k₀, v₀⟩ := hd
    by_cases hk : k₀ = k
    · subst hk
      simp only [lookupKV, if_true, eq_self_iff_true, Option.some.injEq] at h
      simp [setKV, h]
    · simp only [lookupKV, if_neg hk] at h
      simp [setKV, if_neg hk, ih h]

theorem setKV_setKV {κ α : Type} [DecidableEq κ] (m : List (κ × α)) (k : κ) (v v' : α) :
    setKV (setKV m k v) k v' = setKV m k v' := by
  induction m with
  | nil => simp [setKV]
  | cons hd tl ih =>
    obtain ⟨k₀, v₀⟩ := hd
    by_cases hk : k₀ = k
    · subst hk
      simp [setKV]
    · simp [setKV, if_neg hk, ih]

theorem lookupKV_mem {κ α : Type} [DecidableEq κ] {m : List (κ × α)} {k : κ} {v : α}
    (h : lookupKV m k = some v) : (k, v) ∈ m := by
  induction m with
  | nil => simp [lookupKV] at h
  | cons hd tl ih =>
    obtain ⟨k₀, v₀⟩ := hd
    by_cases hk : k₀ = k
    · subst hk
      simp only [lookupKV, if_true, eq_self_iff_true, Option.some.injEq] at h
      subst h
      exact List.mem_cons_self _ _
    · simp only [lookupKV, if_neg hk] at h
      exact List.mem_cons_of_mem _ (ih h)

theorem lookupKV_isSome_mem_keys {κ α : Type} [DecidableEq κ] {m : List (κ × α)} {k : κ}
    (h : (lookupKV m k).isSome) : k ∈ m.map Prod.fst := by
  obtain ⟨v, hv⟩ := Option.isSome_iff_exists.mp h
  exact List.mem_map.mpr ⟨(k, v), lookupKV_mem hv, rfl⟩

theorem pjoin2_ne_dir (dir name : Str) : pjoin2 dir name ≠ dir := by
  intro h
  have := congrArg List.length h
  simp [pjoin2] at this

theorem pjoin2_inj_right {dir a b : Str} (h : pjoin2 dir a = pjoin2 dir b) : a = b := by
  have := List.append_cancel_left (h : dir ++ '/' :: a = dir ++ '/' :: b)
  exact List.cons.inj this |>.2

theorem append_ne_self_of_ne_nil (p q : Str) (hq : q ≠ []) : p ++ q ≠ p := by
  intro h
  have := congrArg List.length h
  simp at this
  exact hq this

/-! ## Claim C9: the sanitizer -/

theorem isSafeChar_underscore : isSafeChar '_' = true := by decide

/-- Claim C9: sanitize replaces every character outside [A-Za-z0-9._-] with an
underscore (it is a characterwise map, hence deterministic and total), its
output contains only characters of that class, and it is idempotent. -/
theorem sanitize_safe_and_idempotent (s : Str) :
    sanitize s = s.map (fun c => if isSafeChar c then c else '_') ∧
    (∀ c ∈ sanitize s, isSafeChar c = true) ∧
    sanitize (sanitize s) = sanitize s := by
  refine ⟨rfl, ?_, ?_⟩
  · intro c hc
    simp only [sanitize, List.mem_map] at hc
    obtain ⟨a, _, ha⟩ := hc
    by_cases h : isSafeChar a
    · rw [if_pos h] at ha
      rw [← ha]
      exact h
    · rw [if_neg h] at ha
      rw [← ha]
      exact isSafeChar_underscore
  · simp only [sanitize, List.map_map]
    apply List.map_congr_left
    intro a _
    by_cases h : isSafeChar a
    · simp [Function.comp, h]
    · simp [Function.comp, h, isSafeChar_underscore]

/-! ## Claim C4: path resolution confined to the storage root -/

theorem hasDotDot_cons (c : Char) (s : Str) (h : hasDotDot s = true) :
    hasDotDot (c :: s) = true := by
  match s with
  | [] => simp [hasDotDot] at h
  | b :: rest =>
    simp only [hasDotDot] at h ⊢
    rw [h]
    simp

theorem stripDotDot_cons_of_not_dotdot (c : Char) (rest : Str)
    (h : ∀ r1, c = '.' → rest = '.' :: r1 → False) :
    stripDotDot (c :: rest) = c :: stripDotDot rest := by
  rw [stripDotDot.eq_def]
  split
  · rename_i r1 heq
    obtain ⟨hc, hr⟩ := List.cons.inj heq
    exact absurd (h r1 hc hr) (fun x => x)
  · rename_i c1 r1 heq
    obtain ⟨hc, hr⟩ := List.cons.inj heq
    rw [hc, hr]
  · rename_i heq
    exact absurd heq (by simp)

theorem stripDotDot_no_dotdot (s : Str) : hasDotDot (stripDotDot s) = false := by
  induction s using stripDotDot.induct with
  | case1 rest ih => simpa [stripDotDot] using ih
  | case2 c rest h ih =>
    rw [stripDotDot_cons_of_not_dotdot c rest h]
    cases hs : stripDotDot rest with
    | nil => simp [hasDotDot]
    | cons d r =>
      rw [hs] at ih
      simp only [hasDotDot, ih, Bool.or_false]
      by_cases hc : c = '.'
      · subst hc
        cases rest with
        | nil => simp [stripDotDot] at hs
        | cons e r2 =>
          have he : e ≠ '.' := fun heq' => h r2 rfl (by rw [heq'])
          rw [stripDotDot_cons_of_not_dotdot e r2 (fun r1 he' _ => absurd he' he)] at hs
          have hd : e = d := (List.cons.inj hs).1
          subst hd
          simp [he]
      · simp [hc]
  | case3 => simp [stripDotDot, hasDotDot]

theorem hasDotDot_of_suffix {t s : Str} (h : t <:+ s) (ht : hasDotDot t = true) :
    hasDotDot s = true := by
  obtain ⟨p, hp⟩ := h
  subst hp
  induction p with
  | nil => exact ht
  | cons c p' ih => exact hasDotDot_cons c _ ih

theorem splitSegs_ne_nil (s : Str) : splitSegs s ≠ [] := by
  cases s with
  | nil => simp [splitSegs]
  | cons c rest =>
    simp only [splitSegs]
    split
    · simp
    · split <;> simp

theorem splitSegs_append_slash (a b : Str) :
    splitSegs (a ++ '/' :: b) = splitSegs a ++ splitSegs b := by
  induction a with
  | nil => simp [splitSegs]
  | cons c a' ih =>
    by_cases hc : c = '/'
    · subst hc
      simp only [List.cons_append, splitSegs, if_pos rfl]
      simp [ih]
    · obtain ⟨t, ts, hts⟩ := List.exists_cons_of_ne_nil (splitSegs_ne_nil a')
      simp only [List.cons_append, splitSegs, if_neg hc, List.append_eq]
      rw [ih, hts]
      simp

theorem splitSegs_head_first_char {s : Str} {d : Char} {t : Str} {ts : List Str}
    (h : splitSegs s = (d :: t) :: ts) : ∃ r, s = d :: r := by
  cases s with
  | nil =>
    simp [splitSegs] at h
  | cons e r =>
    by_cases he : e = '/'
    · subst he
      simp [splitSegs] at h
    · refine ⟨r, ?_⟩
      simp only [splitSegs, if_neg he] at h
      rcases hs : splitSegs r with _ | ⟨s₀, ss⟩
      · rw [hs] at h
        have := (List.cons.inj h).1
        rw [(List.cons.inj this).1]
      · rw [hs] at h
        have := (List.cons.inj h).1
        rw [(List.cons.inj this).1]

theorem hasDotDot_of_mem_splitSegs {s seg : Str} (hm : seg ∈ splitSegs s)
    (hseg : hasDotDot seg = true) : hasDotDot s = true := by
  induction s generalizing seg with
  | nil =>
    simp [splitSegs] at hm
    subst hm
    simp [hasDotDot] at hseg
  | cons c rest ih =>
    by_cases hc : c = '/'
    · subst hc
      simp only [splitSegs, if_pos rfl] at hm
      rcases List.mem_cons.mp hm with h1 | h2
      · subst h1
        simp [hasDotDot] at hseg
      · exact hasDotDot_cons _ _ (ih h2 hseg)
    · simp only [splitSegs, if_neg hc] at hm
      obtain ⟨t, ts, hts⟩ := List.exists_cons_of_ne_nil (splitSegs_ne_nil rest)
      rw [hts] at hm
      rcases List.mem_cons.mp hm with h1 | h2
      · subst h1
        cases ht : t with
        | nil =>
          rw [ht] at hseg
          simp [hasDotDot] at hseg
        | cons d t' =>
          rw [ht] at hseg
          simp only [hasDotDot] at hseg
          rcases Bool.or_eq_true_iff.mp hseg with hdots | htail
          · obtain ⟨hc', hd⟩ := Bool.and_eq_true_iff.mp hdots
            have hc'' : c = '.' := by
              have := of_decide_eq_true (by simpa using hc')
              exact this
            have hd' : d = '.' := by
              have := of_decide_eq_true (by simpa using hd)
              exact this
            rw [ht] at hts
            obtain ⟨r, hr⟩ := splitSegs_head_first_char hts
            rw [hr, hc'', hd']
            simp [hasDotDot]
          · have : hasDotDot t = true := by
              rw [ht]
              exact htail
            have hmem : t ∈ splitSegs rest := by
              rw [hts]
              exact List.mem_cons_self _ _
            exact hasDotDot_cons _ _ (ih hmem this)
      · exact hasDotDot_cons _ _ (ih (by rw [hts]; exact List.mem_cons_of_mem _ h2) hseg)

theorem foldl_normStep_no_dotdot (Y : List Str) :
    ∀ A : List Str, (∀ seg ∈ Y, seg ≠ ['.', '.']) →
      ∃ Z, Y.foldl normStep A = A ++ Z := by
  induction Y with
  | nil =>
    intro A _
    exact ⟨[], by simp⟩
  | cons seg Y' ih =>
    intro A h
    have hseg : seg ≠ ['.', '.'] := h seg (List.mem_cons_self _ _)
    have h' : ∀ s ∈ Y', s ≠ ['.', '.'] := fun s hs => h s (List.mem_cons_of_mem _ hs)
    simp only [List.foldl_cons]
    by_cases h0 : seg = [] ∨ seg = ['.']
    · rw [show normStep A seg = A from by simp [normStep, h0]]
      exact ih A h'
    · rw [show normStep A seg = A ++ [seg] from by simp [normStep, h0, hseg]]
      obtain ⟨Z, hZ⟩ := ih (A ++ [seg]) h'
      exact ⟨[seg] ++ Z, by rw [hZ, List.append_assoc]⟩

theorem renderSegs_cons_of_ne_nil (s : Str) (rest : List Str) (h : rest ≠ []) :
    renderSegs (s :: rest) = s ++ '/' :: renderSegs rest := by
  cases rest with
  | nil => exact absurd rfl h
  | cons a r => rfl

theorem renderSegs_append_mono (A Z : List Str) :
    renderSegs A <+: renderSegs (A ++ Z) := by
  induction A with
  | nil => simp [renderSegs]
  | cons s A' ih =>
    cases hA : A' with
    | nil =>
      cases Z with
      | nil => simp
      | cons z zs =>
        simp only [renderSegs, List.nil_append, List.cons_append]
        exact ⟨'/' :: renderSegs (z :: zs), rfl⟩
    | cons a r =>
      rw [← hA]
      have hne : A' ≠ [] := by rw [hA]; simp
      have hne2 : A' ++ Z ≠ [] := by
        intro hcon
        exact hne (List.append_eq_nil.mp hcon).1
      rw [renderSegs_cons_of_ne_nil s A' hne]
      rw [show (s :: A') ++ Z = s :: (A' ++ Z) from rfl]
      rw [renderSegs_cons_of_ne_nil s (A' ++ Z) hne2]
      obtain ⟨t, ht⟩ := ih
      exact ⟨t, by rw [← ht]; simp⟩

/-- Claim C4: for every client-supplied relative path string (as used when the
path metadata is truthy), the resolved target directory is textually prefixed,
after normalization, by the storage root: stripping all double-dot substrings
leaves no double-dot segment, so joining onto the root can never escape it. -/
theorem resolveTargetDir_confined_to_root (root input : Str) (hne : input ≠ []) :
    ('/' :: renderSegs (normSegs (splitSegs root))) <+: resolveTargetDir root (some input) := by
  have hres : resolveTargetDir root (some input) =
      joinNorm root (stripLeadingSlashes (stripDotDot input)) := by
    simp [resolveTargetDir, hne]
  rw [hres]
  set rel := stripLeadingSlashes (stripDotDot input) with hrel
  have hrelDD : hasDotDot rel = false := by
    by_cases h : hasDotDot rel = true
    · have hsuf : rel <:+ stripDotDot input := List.dropWhile_suffix _
      have := hasDotDot_of_suffix hsuf h
      rw [stripDotDot_no_dotdot input] at this
      exact absurd this (by simp)
    · exact Bool.not_eq_true _ ▸ eq_false_of_ne_true h
  have hsegs : ∀ seg ∈ splitSegs rel, seg ≠ ['.', '.'] := by
    intro seg hmem hcon
    have : hasDotDot seg = true := by rw [hcon]; simp [hasDotDot]
    have := hasDotDot_of_mem_splitSegs hmem this
    rw [hrelDD] at this
    exact absurd this (by simp)
  rw [joinNorm, splitSegs_append_slash]
  rw [show normSegs (splitSegs root ++ splitSegs rel) =
      (splitSegs rel).foldl normStep (normSegs (splitSegs root)) from
    List.foldl_append ..]
  obtain ⟨Z, hZ⟩ := foldl_normStep_no_dotdot (splitSegs rel) (normSegs (splitSegs root)) hsegs
  rw [hZ]
  obtain ⟨t, ht⟩ := renderSegs_append_mono (normSegs (splitSegs root)) Z
  exact ⟨t, by rw [← ht]; simp⟩

/-- Witness for claim C4 at a concrete root and a traversal-attempt input. -/
theorem resolveTargetDir_confined_to_root_witness :
    ('/' :: renderSegs (normSegs (splitSegs ("/workspace".data)))) <+:
      resolveTargetDir ("/workspace".data) (some ("../../etc/passwd".data)) :=
  resolveTargetDir_confined_to_root ("/workspace".data) ("../../etc/passwd".data) (by decide)

/-! ## Claim C6: numbered duplicate resolution finds the lowest free slot -/

theorem digitVal_digitChar (d : Nat) (h : d < 10) : digitVal (digitChar d) = d := by
  interval_cases d <;> decide

theorem parseDec_append_digit (s : Str) (c : Char) :
    parseDec (s ++ [c]) = parseDec s * 10 + digitVal c := by
  simp [parseDec, List.foldl_append]

theorem parseDec_natDecAux (fuel : Nat) :
    ∀ n : Nat, n < 10 ^ fuel → parseDec (natDecAux fuel n) = n := by
  induction fuel with
  | zero =>
    intro n hn
    interval_cases n
    simp [natDecAux, parseDec]
  | succ fuel ih =>
    intro n hn
    by_cases h : n < 10
    · simp only [natDecAux, if_pos h, parseDec, List.foldl_cons, List.foldl_nil]
      rw [digitVal_digitChar n h]
      simp
    · simp only [natDecAux, if_neg h]
      rw [parseDec_append_digit]
      have hdiv : n / 10 < 10 ^ fuel := by
        rw [Nat.div_lt_iff_lt_mul (by norm_num)]
        calc n < 10 ^ (fuel + 1) := hn
          _ = 10 ^ fuel * 10 := by rw [Nat.pow_succ]
      rw [ih (n / 10) hdiv, digitVal_digitChar (n % 10) (Nat.mod_lt n (by norm_num))]
      omega

theorem parseDec_natDec (n : Nat) : parseDec (natDec n) = n := by
  apply parseDec_natDecAux
  calc n < 10 ^ n := Nat.lt_pow_self (by norm_num) n
    _ ≤ 10 ^ (n + 1) := Nat.pow_le_pow_right (by norm_num) (Nat.le_succ n)

theorem natDec_inj {i j : Nat} (h : natDec i = natDec j) : i = j := by
  have := congrArg parseDec h
  rwa [parseDec_natDec, parseDec_natDec] at this

theorem numbered_path_inj (td base ext : Str) :
    Function.Injective (fun i => pjoin2 td (numbered base ext i)) := by
  intro i j h
  have h1 := pjoin2_inj_right h
  simp only [numbered] at h1
  have h2 := List.append_cancel_left h1
  have h3 := (List.cons.inj h2).2
  exact natDec_inj (List.append_cancel_right h3)

theorem exists_free_slot (fs : FS) (td base ext : Str) :
    ∃ i, 1 ≤ i ∧ i ≤ fs.length + 1 ∧
      FS.existsp fs (pjoin2 td (numbered base ext i)) = false := by
  by_contra hcon
  push_neg at hcon
  have hall : ∀ i, 1 ≤ i → i ≤ fs.length + 1 →
      FS.existsp fs (pjoin2 td (numbered base ext i)) = true := by
    intro i h1 h2
    have := hcon i h1 h2
    exact eq_true_of_ne_false this
  have hinj : Function.Injective (fun k : Nat => pjoin2 td (numbered base ext (k + 1))) := by
    intro a b hab
    have := numbered_path_inj td base ext hab
    omega
  have hsub : (Finset.range (fs.length + 1)).image
      (fun k => pjoin2 td (numbered base ext (k + 1))) ⊆ (fs.map Prod.fst).toFinset := by
    intro p hp
    obtain ⟨k, hk, hkp⟩ := Finset.mem_image.mp hp
    have hk' : k < fs.length + 1 := Finset.mem_range.mp hk
    have hex := hall (k + 1) (by omega) (by omega)
    rw [hkp] at hex
    exact List.mem_toFinset.mpr (lookupKV_isSome_mem_keys hex)
  have hcard := Finset.card_le_card hsub
  rw [Finset.card_image_of_injective _ hinj, Finset.card_range] at hcard
  have := List.toFinset_card_le (fs.map Prod.fst)
  simp only [List.length_map] at this
  omega

theorem findFreeLoop_spec (fs : FS) (td base ext : Str) (j : Nat)
    (hfree : FS.existsp fs (pjoin2 td (numbered base ext j)) = false) :
    ∀ fuel k, k ≤ j →
      (∀ m, k ≤ m → m < j → FS.existsp fs (pjoin2 td (numbered base ext m)) = true) →
      j - k < fuel →
      findFreeLoop fs td base ext (numbered base ext k) (k + 1) fuel =
        some (numbered base ext j) := by
  intro fuel
  induction fuel with
  | zero =>
    intro k _ _ hf
    omega
  | succ fuel ih =>
    intro k hk hall hf
    by_cases hkj : k = j
    · subst hkj
      simp only [findFreeLoop, hfree]
      simp
    · have hlt : k < j := lt_of_le_of_ne hk hkj
      have hex : FS.existsp fs (pjoin2 td (numbered base ext k)) = true :=
        hall k le_rfl hlt
      simp only [findFreeLoop, hex, if_true]
      exact ih (k + 1) hlt (fun m hm1 hm2 => hall m (by omega) hm2) (by omega)

theorem lastDotIdx_lt (s : Str) : ∀ i : Nat, lastDotIdx s = some i → i < s.length := by
  induction s with
  | nil => intro i h; simp [lastDotIdx] at h
  | cons c rest ih =>
    intro i h
    simp only [lastDotIdx] at h
    cases hr : lastDotIdx rest with
    | some i' =>
      rw [hr] at h
      have := ih i' hr
      simp only [Option.some.injEq] at h
      subst h
      simp
      omega
    | none =>
      rw [hr] at h
      by_cases hc : c = '.'
      · rw [if_pos hc] at h
        simp only [Option.some.injEq] at h
        subst h
        simp
      · rw [if_neg hc] at h
        exact absurd h (by simp)

theorem basenameExt_append_extname (name : Str) :
    basenameExt name (extname name) ++ extname name = name := by
  by_cases hdd : name = ['.', '.']
  · rw [show extname name = [] from by rw [extname, if_pos hdd]]
    simp [basenameExt]
  · cases hidx : lastDotIdx name with
    | none =>
      rw [show extname name = [] from by rw [extname, if_neg hdd, hidx]]
      simp [basenameExt]
    | some i =>
      cases i with
      | zero =>
        rw [show extname name = [] from by rw [extname, if_neg hdd, hidx]]
        simp [basenameExt]
      | succ i' =>
        have hext : extname name = name.drop (i' + 1) := by
          simp [extname, hdd, hidx]
        have hlt : i' + 1 < name.length := lastDotIdx_lt name (i' + 1) hidx
        have hlen : (name.drop (i' + 1)).length = name.length - (i' + 1) := by simp
        have hcond : extname name ≠ [] ∧ (extname name).length < name.length ∧
            name.drop (name.length - (extname name).length) = extname name := by
          refine ⟨?_, ?_, ?_⟩
          · rw [hext]
            intro hcon
            have := congrArg List.length hcon
            simp at this
            omega
          · rw [hext, hlen]
            omega
          · rw [hext, hlen]
            congr 1
            omega
        rw [basenameExt, if_pos hcond, hext, hlen]
        rw [show name.length - (name.length - (i' + 1)) = i' + 1 from by omega]
        exact List.take_append_drop (i' + 1) name

/-- Claim C6: under the number policy with an existing same-named file, the
duplicate resolution returns the numbered candidate of the least free index
(re-checking existence for each candidate), and in every other case the name
is returned unchanged. -/
theorem resolveDuplicate_lowest_free_slot (fs : FS) (td name : Str) (j : Nat) :
    (FS.existsp fs (pjoin2 td name) = true → 1 ≤ j →
      FS.existsp fs (pjoin2 td
        (numbered (basenameExt name (extname name)) (extname name) j)) = false →
      (∀ m ∈ List.range' 1 (j - 1),
        FS.existsp fs (pjoin2 td
          (numbered (basenameExt name (extname name)) (extname name) m)) = true) →
      resolveDuplicate fs td name (some numberLit) =
        numbered (basenameExt name (extname name)) (extname name) j) ∧
    (∀ policy : Option Str,
      ¬(FS.existsp fs (pjoin2 td name) = true ∧ policy = some numberLit) →
      resolveDuplicate fs td name policy = name) := by
  constructor
  · intro hex hj hfree hall
    have hbe : basenameExt name (extname name) ++ extname name = name :=
      basenameExt_append_extname name
    have hall' : ∀ m, 1 ≤ m → m < j →
        FS.existsp fs (pjoin2 td
          (numbered (basenameExt name (extname name)) (extname name) m)) = true := by
      intro m h1 h2
      exact hall m (List.mem_range'_1.mpr ⟨h1, by omega⟩)
    have hjle : j ≤ fs.length + 1 := by
      obtain ⟨i₀, hi1, hi2, hi3⟩ :=
        exists_free_slot fs td (basenameExt name (extname name)) (extname name)
      by_contra hcon
      push_neg at hcon
      have := hall' i₀ hi1 (by omega)
      rw [this] at hi3
      exact absurd hi3 (by simp)
    have hstep : findFreeLoop fs td (basenameExt name (extname name)) (extname name)
        (basenameExt name (extname name) ++ extname name) 1 (fs.length + 2) =
        some (numbered (basenameExt name (extname name)) (extname name) j) := by
      rw [show fs.length + 2 = (fs.length + 1) + 1 from rfl]
      rw [show findFreeLoop fs td (basenameExt name (extname name)) (extname name)
          (basenameExt name (extname name) ++ extname name) 1 ((fs.length + 1) + 1) =
          (if FS.existsp fs (pjoin2 td (basenameExt name (extname name) ++ extname name)) then
            findFreeLoop fs td (basenameExt name (extname name)) (extname name)
              (numbered (basenameExt name (extname name)) (extname name) 1) 2 (fs.length + 1)
          else some (basenameExt name (extname name) ++ extname name)) from rfl]
      rw [hbe]
      simp only [hex, if_true]
      exact findFreeLoop_spec fs td (basenameExt name (extname name)) (extname name) j hfree
        (fs.length + 1) 1 hj (fun m h1 h2 => hall' m h1 h2) (by omega)
    have hguard : FS.existsp fs (pjoin2 td name) = true ∧
        (some numberLit : Option Str) = some numberLit := ⟨hex, rfl⟩
    rw [resolveDuplicate, if_pos hguard]
    show (findFreeLoop fs td (basenameExt name (extname name)) (extname name)
        (basenameExt name (extname name) ++ extname name) 1 (fs.length + 2)).getD name =
      numbered (basenameExt name (extname name)) (extname name) j
    rw [hstep]
    rfl
  · intro policy hng
    rw [resolveDuplicate, if_neg]
    intro hcon
    exact hng ⟨hcon.1, hcon.2⟩

def c6td : Str := "/d".data

def c6name : Str := "a.txt".data

def c6fs : FS :=
  [(pjoin2 c6td c6name, Entry.file []),
   (pjoin2 c6td (numbered (basenameExt c6name (extname c6name)) (extname c6name) 1),
    Entry.file [])]

/-- Witness for claim C6: with a.txt and a(1).txt existing, the resolution
picks a(2).txt; with the policy absent the name is unchanged. -/
theorem resolveDuplicate_lowest_free_slot_witness :
    resolveDuplicate c6fs c6td c6name (some numberLit) =
      numbered (basenameExt c6name (extname c6name)) (extname c6name) 2 ∧
    resolveDuplicate c6fs c6td c6name none = c6name :=
  ⟨(resolveDuplicate_lowest_free_slot c6fs c6td c6name 2).1 (by decide) (by decide)
      (by decide) (by decide),
   (resolveDuplicate_lowest_free_slot c6fs c6td c6name 2).2 none (by decide)⟩

/-! ## The chunked copy loop reproduces the part bytes exactly -/

theorem one_le_bufferSize : 1 ≤ bufferSize := by norm_num [bufferSize]

theorem copyChunksAux_eq_drop (b : Nat) (hb : 1 ≤ b) (part : Bytes) :
    ∀ (fuel pos : Nat), part.length - pos < fuel →
      copyChunksAux b part pos fuel = part.drop pos := by
  intro fuel
  induction fuel with
  | zero =>
    intro pos h
    omega
  | succ fuel ih =>
    intro pos h
    by_cases hpos : pos < part.length
    · have hXlen : (part.drop pos).length = part.length - pos := by simp
      have hcl : ((part.drop pos).take b).length = min b (part.length - pos) := by
        simp
      have hcl1 : 1 ≤ ((part.drop pos).take b).length := by
        rw [hcl]
        omega
      simp only [copyChunksAux, if_pos hpos]
      rw [if_neg (by omega)]
      rw [ih (pos + ((part.drop pos).take b).length) (by rw [hcl]; omega)]
      by_cases hble : b ≤ (part.drop pos).length
      · have hclb : ((part.drop pos).take b).length = b := by
          rw [hcl]
          omega
        rw [hclb]
        rw [show part.drop (pos + b) = (part.drop pos).drop b from by
          rw [List.drop_drop]]
        exact List.take_append_drop b (part.drop pos)
      · push_neg at hble
        have hclb : ((part.drop pos).take b).length = (part.drop pos).length := by
          rw [hcl, hXlen]
          omega
        rw [hclb, hXlen]
        rw [show part.drop (pos + (part.length - pos)) = [] from
          List.drop_eq_nil_of_le (by omega)]
        rw [List.take_of_length_le (by omega)]
        simp
    · simp only [copyChunksAux, if_neg hpos]
      rw [List.drop_eq_nil_of_le (by omega)]

theorem copyChunks_eq (b : Nat) (hb : 1 ≤ b) (part : Bytes) : copyChunks b part = part := by
  rw [copyChunks, copyChunksAux_eq_drop b hb part (part.length + 1) 0 (by omega)]
  simp

/-! ## Filesystem framing lemmas -/

theorem lookupKV_appendFile_ne (fs : FS) (p q : Str) (b : Bytes) (h : p ≠ q) :
    lookupKV (FS.appendFile fs p b) q = lookupKV fs q := by
  rw [FS.appendFile]
  cases hl : lookupKV fs p with
  | none => rw [lookupKV_setKV, if_neg h]
  | some e =>
    cases e with
    | file c => rw [lookupKV_setKV, if_neg h]
    | dir => rw [lookupKV_setKV, if_neg h]

theorem appendFile_of_file (fs : FS) (p : Str) (c b : Bytes)
    (h : lookupKV fs p = some (Entry.file c)) :
    FS.appendFile fs p b = setKV fs p (Entry.file (c ++ b)) := by
  rw [FS.appendFile, h]

theorem lookupKV_condRemove (fs : FS) (x q : Str) (h : q ≠ x) :
    lookupKV (if FS.existsp fs x then removeKV fs x else fs) q = lookupKV fs q := by
  by_cases hex : FS.existsp fs x
  · rw [if_pos hex, lookupKV_removeKV, if_neg (fun hh => h hh.symm)]
  · rw [if_neg hex]

theorem lookupKV_condRemove_self (fs : FS) (x : Str) :
    lookupKV (if FS.existsp fs x then removeKV fs x else fs) x = none := by
  by_cases hex : FS.existsp fs x
  · rw [if_pos hex, lookupKV_removeKV, if_pos rfl]
  · rw [if_neg hex]
    cases hl : lookupKV fs x with
    | none => rfl
    | some e =>
      rw [FS.existsp, hl] at hex
      simp at hex

theorem tmpLit_ne_nil : tmpLit ≠ [] := by decide

theorem tempPath_ne_finalPath (fs : FS) (f : Str) (info : UploadInfo) :
    tempPathOf fs f info ≠ finalPathOf fs f info :=
  append_ne_self_of_ne_nil _ _ tmpLit_ne_nil

/-! ## The write loop of the part concatenator -/

theorem writeLoopAux_ok (staging : Str) (u : List (Nat × Str)) (tempPath : Str)
    (σ : Nat → Str) (B : Nat → Bytes) :
    ∀ (r p : Nat) (fs : FS) (c : Bytes),
      (∀ k ∈ List.range' p r, lookupKV u k = some (σ k)) →
      (∀ k ∈ List.range' p r, lookupKV fs (pjoin2 staging (σ k)) = some (Entry.file (B k))) →
      (∀ k ∈ List.range' p r, pjoin2 staging (σ k) ≠ tempPath) →
      lookupKV fs tempPath = some (Entry.file c) →
      writeLoopAux staging u tempPath fs p r =
        Except.ok (setKV fs tempPath (Entry.file (c ++ ((List.range' p r).map B).flatten)),
          List.range' p r) := by
  intro r
  induction r with
  | zero =>
    intro p fs c _ _ _ htemp
    simp only [writeLoopAux, List.range']
    rw [show Entry.file (c ++ (List.map B []).flatten) = Entry.file c from by simp]
    rw [setKV_lookup_self fs tempPath (Entry.file c) htemp]
  | succ r ih =>
    intro p fs c hids hparts hne htemp
    have hmem : p ∈ List.range' p (r + 1) := List.mem_range'_1.mpr ⟨le_rfl, by omega⟩
    have hid := hids p hmem
    have hpart := hparts p hmem
    have hnep := hne p hmem
    have htail : ∀ k ∈ List.range' (p + 1) r, k ∈ List.range' p (r + 1) := by
      intro k hk
      have := List.mem_range'_1.mp hk
      exact List.mem_range'_1.mpr ⟨by omega, by omega⟩
    have hcopy : copyChunks bufferSize (B p) = B p :=
      copyChunks_eq bufferSize one_le_bufferSize (B p)
    have happ : FS.appendFile fs tempPath (copyChunks bufferSize (B p)) =
        setKV fs tempPath (Entry.file (c ++ B p)) := by
      rw [hcopy]
      exact appendFile_of_file fs tempPath c (B p) htemp
    have hids' : ∀ k ∈ List.range' (p + 1) r, lookupKV u k = some (σ k) :=
      fun k hk => hids k (htail k hk)
    have hparts' : ∀ k ∈ List.range' (p + 1) r,
        lookupKV (setKV fs tempPath (Entry.file (c ++ B p))) (pjoin2 staging (σ k)) =
          some (Entry.file (B k)) := by
      intro k hk
      rw [lookupKV_setKV, if_neg (fun hh => (hne k (htail k hk)) hh.symm)]
      exact hparts k (htail k hk)
    have hne' : ∀ k ∈ List.range' (p + 1) r, pjoin2 staging (σ k) ≠ tempPath :=
      fun k hk => hne k (htail k hk)
    have htemp' : lookupKV (setKV fs tempPath (Entry.file (c ++ B p))) tempPath =
        some (Entry.file (c ++ B p)) := by
      rw [lookupKV_setKV, if_pos rfl]
    simp only [writeLoopAux, hid, hpart, happ]
    rw [ih (p + 1) (setKV fs tempPath (Entry.file (c ++ B p))) (c ++ B p)
      hids' hparts' hne' htemp']
    rw [setKV_setKV]
    rw [List.range'_succ]
    simp [List.append_assoc]

/-! ## The cleanup loop of the part concatenator -/

theorem cleanupLoopAux_ok (staging : Str) (u : List (Nat × Str)) (σ : Nat → Str) :
    ∀ (r p : Nat) (fs : FS),
      (∀ k ∈ List.range' p r, lookupKV u k = some (σ k)) →
      ∃ fsOut, cleanupLoopAux staging u fs p r = Except.ok fsOut ∧
        ∀ q : Str, (∀ k ∈ List.range' p r,
            q ≠ pjoin2 staging (σ k) ∧ q ≠ pjoin2 staging (σ k ++ jsonLit)) →
          lookupKV fsOut q = lookupKV fs q := by
  intro r
  induction r with
  | zero =>
    intro p fs _
    exact ⟨fs, rfl, fun q _ => rfl⟩
  | succ r ih =>
    intro p fs hids
    have hmem : p ∈ List.range' p (r + 1) := List.mem_range'_1.mpr ⟨le_rfl, by omega⟩
    have hid := hids p hmem
    have htail : ∀ k ∈ List.range' (p + 1) r, k ∈ List.range' p (r + 1) := by
      intro k hk
      have := List.mem_range'_1.mp hk
      exact List.mem_range'_1.mpr ⟨by omega, by omega⟩
    obtain ⟨fsOut, hcl, hframe⟩ := ih (p + 1)
      (let fs1 := if FS.existsp fs (pjoin2 staging (σ p)) then
          removeKV fs (pjoin2 staging (σ p)) else fs
        if FS.existsp fs1 (pjoin2 staging (σ p ++ jsonLit)) then
          removeKV fs1 (pjoin2 staging (σ p ++ jsonLit)) else fs1)
      (fun k hk => hids k (htail k hk))
    refine ⟨fsOut, ?_, ?_⟩
    · simp only [cleanupLoopAux, hid]
      exact hcl
    · intro q hq
      have hq1 := (hq p hmem).1
      have hq2 := (hq p hmem).2
      rw [hframe q (fun k hk => hq k (htail k hk))]
      rw [lookupKV_condRemove _ _ _ hq2, lookupKV_condRemove _ _ _ hq1]

/-! ## Successful concatenation -/

theorem concatenateAndCleanup_ok (staging : Str) (fs : FS) (f : Str) (n : Nat)
    (info : UploadInfo) (σ : Nat → Str) (B : Nat → Bytes)
    (hids : ∀ k ∈ List.range' 1 n, lookupKV info.uploadIds k = some (σ k))
    (hparts : ∀ k ∈ List.range' 1 n,
      lookupKV fs (pjoin2 staging (σ k)) = some (Entry.file (B k)))
    (hnet : ∀ k ∈ List.range' 1 n, pjoin2 staging (σ k) ≠ tempPathOf fs f info)
    (hnef : ∀ k ∈ List.range' 1 n, finalPathOf fs f info ≠ pjoin2 staging (σ k) ∧
        finalPathOf fs f info ≠ pjoin2 staging (σ k ++ jsonLit)) :
    ∃ fs4, concatenateAndCleanup staging fs f n info = Except.ok (fs4, List.range' 1 n) ∧
      lookupKV fs4 (finalPathOf fs f info) =
        some (Entry.file ((List.range' 1 n).map B).flatten) := by
  have htmpne := tempPath_ne_finalPath fs f info
  have hparts1 : ∀ k ∈ List.range' 1 n,
      lookupKV (setKV fs (tempPathOf fs f info) (Entry.file []))
        (pjoin2 staging (σ k)) = some (Entry.file (B k)) := by
    intro k hk
    rw [lookupKV_setKV, if_neg (fun hh => (hnet k hk) hh.symm)]
    exact hparts k hk
  have htemp1 : lookupKV (setKV fs (tempPathOf fs f info) (Entry.file []))
      (tempPathOf fs f info) = some (Entry.file []) := by
    rw [lookupKV_setKV, if_pos rfl]
  have hwl := writeLoopAux_ok staging info.uploadIds (tempPathOf fs f info) σ B n 1
    (setKV fs (tempPathOf fs f info) (Entry.file [])) [] hids hparts1 hnet htemp1
  rw [setKV_setKV] at hwl
  rw [show ([] : Bytes) ++ ((List.range' 1 n).map B).flatten =
    ((List.range' 1 n).map B).flatten from by simp] at hwl
  have hfs2temp : lookupKV (setKV fs (tempPathOf fs f info)
      (Entry.file ((List.range' 1 n).map B).flatten)) (tempPathOf fs f info) =
      some (Entry.file ((List.range' 1 n).map B).flatten) := by
    rw [lookupKV_setKV, if_pos rfl]
  obtain ⟨fsOut, hcl, hframe⟩ := cleanupLoopAux_ok staging info.uploadIds σ n 1
    (FS.rename (setKV fs (tempPathOf fs f info)
        (Entry.file ((List.range' 1 n).map B).flatten))
      (tempPathOf fs f info) (finalPathOf fs f info))
    hids
  refine ⟨fsOut, ?_, ?_⟩
  · rw [concatenateAndCleanup]
    rw [hwl]
    dsimp only
    rw [hcl]
  · rw [hframe (finalPathOf fs f info) hnef]
    rw [FS.rename, hfs2temp, lookupKV_setKV, if_pos rfl]

theorem chain_lt_range' : ∀ (n s : Nat), List.Chain' (· < ·) (List.range' s n)
  | 0, s => by simp
  | 1, s => by simp [List.range']
  | (n + 2), s => by
    rw [List.range'_succ, List.range'_succ]
    refine List.chain'_cons.mpr ⟨by omega, ?_⟩
    rw [← List.range'_succ]
    exact chain_lt_range' (n + 1) (s + 1)

/-- Claim C1: when the part group maps every part number 1..totalParts to a
staged file, concatenation succeeds, appends the parts in strictly ascending
part-number order (the trace equals the range 1..n, which is strictly
increasing), and leaves at the final destination path a file whose bytes are
exactly the concatenation of the part contents, for parts of any size
relative to the copy buffer. -/
theorem concatenateAndCleanup_concats_in_order (staging : Str) (fs : FS) (f : Str)
    (n : Nat) (info : UploadInfo) (σ : Nat → Str) (B : Nat → Bytes)
    (hids : ∀ k ∈ List.range' 1 n, lookupKV info.uploadIds k = some (σ k))
    (hparts : ∀ k ∈ List.range' 1 n,
      lookupKV fs (pjoin2 staging (σ k)) = some (Entry.file (B k)))
    (hnet : ∀ k ∈ List.range' 1 n, pjoin2 staging (σ k) ≠ tempPathOf fs f info)
    (hnef : ∀ k ∈ List.range' 1 n, finalPathOf fs f info ≠ pjoin2 staging (σ k) ∧
        finalPathOf fs f info ≠ pjoin2 staging (σ k ++ jsonLit)) :
    ∃ fs4, concatenateAndCleanup staging fs f n info = Except.ok (fs4, List.range' 1 n) ∧
      List.Chain' (· < ·) (List.range' 1 n) ∧
      lookupKV fs4 (finalPathOf fs f info) =
        some (Entry.file ((List.range' 1 n).map B).flatten) := by
  obtain ⟨fs4, h1, h2⟩ := concatenateAndCleanup_ok staging fs f n info σ B
    hids hparts hnet hnef
  exact ⟨fs4, h1, chain_lt_range' n 1, h2⟩

def c1staging : Str := "/workspace/UPLOAD_STAGING_DIR".data

def c1name : Str := "video.mp4".data

def c1sigma : Nat → Str := fun k => if k = 1 then "sid1".data else "sid2".data

def c1B : Nat → Bytes := fun k => if k = 1 then [10, 20] else [30]

def c1info : UploadInfo :=
  { parts := [1, 2], metadata := {}, targetDir := "/workspace/docs".data,
    uploadIds := [(1, "sid1".data), (2, "sid2".data)], timestamp := 0 }

def c1fs : FS :=
  [(pjoin2 c1staging ("sid1".data), Entry.file [10, 20]),
   (pjoin2 c1staging ("sid2".data), Entry.file [30])]

/-- Witness for claim C1 at two concrete parts. -/
theorem concatenateAndCleanup_concats_in_order_witness :
    ∃ fs4, concatenateAndCleanup c1staging c1fs c1name 2 c1info =
        Except.ok (fs4, List.range' 1 2) ∧
      List.Chain' (· < ·) (List.range' 1 2) ∧
      lookupKV fs4 (finalPathOf c1fs c1name c1info) =
        some (Entry.file ((List.range' 1 2).map c1B).flatten) :=
  concatenateAndCleanup_concats_in_order c1staging c1fs c1name 2 c1info c1sigma c1B
    (by decide) (by decide) (by decide) (by decide)

/-! ## Failing concatenation: error propagation and cleanup -/

theorem resolveDuplicate_unchanged (fs : FS) (td name : Str) (policy : Option Str)
    (h : ¬(FS.existsp fs (pjoin2 td name) = true ∧ policy = some numberLit)) :
    resolveDuplicate fs td name policy = name := by
  rw [resolveDuplicate, if_neg]
  intro hc
  exact h ⟨hc.1, hc.2⟩

theorem writeLoopAux_error (staging : Str) (u : List (Nat × Str)) (tempPath : Str)
    (σ : Nat → Str) (B : Nat → Bytes) :
    ∀ (r p : Nat) (fs : FS) (m : Nat), p ≤ m → m < p + r →
      (∀ k ∈ List.range' p (m - p), lookupKV u k = some (σ k) ∧
        lookupKV fs (pjoin2 staging (σ k)) = some (Entry.file (B k)) ∧
        pjoin2 staging (σ k) ≠ tempPath) →
      (lookupKV u m = none ∨ ∃ idm, lookupKV u m = some idm ∧
        lookupKV fs (pjoin2 staging idm) = none ∧ pjoin2 staging idm ≠ tempPath) →
      ∃ msg fsE, writeLoopAux staging u tempPath fs p r = Except.error (msg, fsE) := by
  intro r
  induction r with
  | zero =>
    intro p fs m h1 h2 _ _
    omega
  | succ r ih =>
    intro p fs m hpm hmr hall hmiss
    by_cases hpe : p = m
    · subst hpe
      rcases hmiss with hnone | ⟨idm, hid, hmissfs, _⟩
      · exact ⟨invalidPathMsg, fs, by simp only [writeLoopAux, hnone]⟩
      · exact ⟨partNotFoundMsg, fs, by simp only [writeLoopAux, hid, hmissfs]⟩
    · have hplt : p < m := lt_of_le_of_ne hpm hpe
      have hmem : p ∈ List.range' p (m - p) := List.mem_range'_1.mpr ⟨le_rfl, by omega⟩
      obtain ⟨hid, hpart, hne⟩ := hall p hmem
      have htail : ∀ k ∈ List.range' (p + 1) (m - (p + 1)), k ∈ List.range' p (m - p) := by
        intro k hk
        have := List.mem_range'_1.mp hk
        exact List.mem_range'_1.mpr ⟨by omega, by omega⟩
      have hall' : ∀ k ∈ List.range' (p + 1) (m - (p + 1)),
          lookupKV u k = some (σ k) ∧
          lookupKV (FS.appendFile fs tempPath (copyChunks bufferSize (B p)))
            (pjoin2 staging (σ k)) = some (Entry.file (B k)) ∧
          pjoin2 staging (σ k) ≠ tempPath := by
        intro k hk
        obtain ⟨ha, hb, hc⟩ := hall k (htail k hk)
        exact ⟨ha, by rw [lookupKV_appendFile_ne _ _ _ _ (fun hh => hc hh.symm)]; exact hb, hc⟩
      have hmiss' : lookupKV u m = none ∨ ∃ idm, lookupKV u m = some idm ∧
          lookupKV (FS.appendFile fs tempPath (copyChunks bufferSize (B p)))
            (pjoin2 staging idm) = none ∧ pjoin2 staging idm ≠ tempPath := by
        rcases hmiss with hnone | ⟨idm, h1, h2, h3⟩
        · exact Or.inl hnone
        · exact Or.inr ⟨idm, h1,
            by rw [lookupKV_appendFile_ne _ _ _ _ (fun hh => h3 hh.symm)]; exact h2, h3⟩
      obtain ⟨msg, fsE, hrec⟩ := ih (p + 1)
        (FS.appendFile fs tempPath (copyChunks bufferSize (B p))) m (by omega) (by omega)
        hall' hmiss'
      exact ⟨msg, fsE, by simp only [writeLoopAux, hid, hpart, hrec]⟩

theorem concatenateAndCleanup_error_state (staging : Str) (fs : FS) (f : Str) (n : Nat)
    (info : UploadInfo) (σ : Nat → Str) (B : Nat → Bytes) (m : Nat)
    (hm : m ∈ List.range' 1 n)
    (hall : ∀ k ∈ List.range' 1 (m - 1), lookupKV info.uploadIds k = some (σ k) ∧
        lookupKV fs (pjoin2 staging (σ k)) = some (Entry.file (B k)) ∧
        pjoin2 staging (σ k) ≠ tempPathOf fs f info)
    (hmiss : lookupKV info.uploadIds m = none ∨ ∃ idm,
        lookupKV info.uploadIds m = some idm ∧
        lookupKV fs (pjoin2 staging idm) = none ∧
        pjoin2 staging idm ≠ tempPathOf fs f info) :
    ∃ msg fsE, concatenateAndCleanup staging fs f n info = Except.error (msg, fsE) ∧
      lookupKV fsE (finalPathOf fs f info) = none ∧
      lookupKV fsE (tempPathOf fs f info) = none := by
  obtain ⟨hm1, hm2⟩ := List.mem_range'_1.mp hm
  have hall1 : ∀ k ∈ List.range' 1 (m - 1),
      lookupKV info.uploadIds k = some (σ k) ∧
      lookupKV (setKV fs (tempPathOf fs f info) (Entry.file []))
        (pjoin2 staging (σ k)) = some (Entry.file (B k)) ∧
      pjoin2 staging (σ k) ≠ tempPathOf fs f info := by
    intro k hk
    obtain ⟨ha, hb, hc⟩ := hall k hk
    exact ⟨ha, by rw [lookupKV_setKV, if_neg (fun hh => hc hh.symm)]; exact hb, hc⟩
  have hmiss1 : lookupKV info.uploadIds m = none ∨ ∃ idm,
      lookupKV info.uploadIds m = some idm ∧
      lookupKV (setKV fs (tempPathOf fs f info) (Entry.file []))
        (pjoin2 staging idm) = none ∧
      pjoin2 staging idm ≠ tempPathOf fs f info := by
    rcases hmiss with hnone | ⟨idm, h1, h2, h3⟩
    · exact Or.inl hnone
    · exact Or.inr ⟨idm, h1,
        by rw [lookupKV_setKV, if_neg (fun hh => h3 hh.symm)]; exact h2, h3⟩
  obtain ⟨msg, fsE, hwe⟩ := writeLoopAux_error staging info.uploadIds
    (tempPathOf fs f info) σ B n 1
    (setKV fs (tempPathOf fs f info) (Entry.file [])) m hm1 (by omega)
    (by rw [show m - 1 = m - 1 from rfl]; exact hall1) hmiss1
  have hfne : finalPathOf fs f info ≠ tempPathOf fs f info :=
    fun hh => (tempPath_ne_finalPath fs f info) hh.symm
  set fsE1 := if FS.existsp fsE (finalPathOf fs f info) then
      removeKV fsE (finalPathOf fs f info) else fsE with hfsE1
  set fsE2 := if FS.existsp fsE1 (tempPathOf fs f info) then
      removeKV fsE1 (tempPathOf fs f info) else fsE1 with hfsE2
  refine ⟨msg, fsE2, ?_, ?_, ?_⟩
  · rw [concatenateAndCleanup, hwe]
  · rw [hfsE2, lookupKV_condRemove _ _ _ hfne, hfsE1, lookupKV_condRemove_self]
  · rw [hfsE2, lookupKV_condRemove_self]

/-- Claim C3: when a declared part is missing from staging (all other parts
having arrived), concatenation signals a reconstruction error and the error
cleanup leaves no file at the final destination path and no temp file. -/
theorem concatenateAndCleanup_missing_part_no_leftovers (staging : Str) (fs : FS)
    (f : Str) (n : Nat) (info : UploadInfo) (σ : Nat → Str) (B : Nat → Bytes) (m : Nat)
    (hm : m ∈ List.range' 1 n)
    (hothers : ∀ k ∈ List.range' 1 n, k ≠ m →
        lookupKV info.uploadIds k = some (σ k) ∧
        lookupKV fs (pjoin2 staging (σ k)) = some (Entry.file (B k)) ∧
        pjoin2 staging (σ k) ≠ tempPathOf fs f info)
    (hmiss : lookupKV info.uploadIds m = none ∨ ∃ idm,
        lookupKV info.uploadIds m = some idm ∧
        lookupKV fs (pjoin2 staging idm) = none ∧
        pjoin2 staging idm ≠ tempPathOf fs f info) :
    ∃ msg fsE, concatenateAndCleanup staging fs f n info = Except.error (msg, fsE) ∧
      lookupKV fsE (finalPathOf fs f info) = none ∧
      lookupKV fsE (tempPathOf fs f info) = none := by
  obtain ⟨hm1, hm2⟩ := List.mem_range'_1.mp hm
  refine concatenateAndCleanup_error_state staging fs f n info σ B m hm ?_ hmiss
  intro k hk
  have := List.mem_range'_1.mp hk
  exact hothers k (List.mem_range'_1.mpr ⟨by omega, by omega⟩) (by omega)

def c3staging : Str := "/workspace/UPLOAD_STAGING_DIR".data

def c3name : Str := "f.bin".data

def c3sigma : Nat → Str := fun _ => "sidA".data

def c3B : Nat → Bytes := fun _ => [5]

def c3info : UploadInfo :=
  { parts := [1, 2], metadata := {}, targetDir := "/t".data,
    uploadIds := [(1, "sidA".data)], timestamp := 0 }

def c3fs : FS := [(pjoin2 c3staging ("sidA".data), Entry.file [5])]

/-- Witness for claim C3: part 2 of 2 was never recorded, so concatenation
fails and leaves neither the destination file nor the temp file. -/
theorem concatenateAndCleanup_missing_part_no_leftovers_witness :
    ∃ msg fsE, concatenateAndCleanup c3staging c3fs c3name 2 c3info =
        Except.error (msg, fsE) ∧
      lookupKV fsE (finalPathOf c3fs c3name c3info) = none ∧
      lookupKV fsE (tempPathOf c3fs c3name c3info) = none :=
  concatenateAndCleanup_missing_part_no_leftovers c3staging c3fs c3name 2 c3info
    c3sigma c3B 2 (by decide) (by decide) (Or.inl (by decide))

/-- Claim C10: when concatenation fails after the final filename has been
resolved, the error cleanup deletes whatever file exists at the final
destination path, including a pre-existing same-named file that was already
in the target directory (under a policy other than number, the destination is
exactly the sanitized name), so no file remains at the destination. -/
theorem concatenateAndCleanup_error_deletes_destination (staging : Str) (fs : FS)
    (f : Str) (n : Nat) (info : UploadInfo) (σ : Nat → Str) (B : Nat → Bytes) (m : Nat)
    (e₀ : Entry)
    (hm : m ∈ List.range' 1 n)
    (hall : ∀ k ∈ List.range' 1 (m - 1), lookupKV info.uploadIds k = some (σ k) ∧
        lookupKV fs (pjoin2 staging (σ k)) = some (Entry.file (B k)) ∧
        pjoin2 staging (σ k) ≠ tempPathOf fs f info)
    (hmiss : lookupKV info.uploadIds m = none ∨ ∃ idm,
        lookupKV info.uploadIds m = some idm ∧
        lookupKV fs (pjoin2 staging idm) = none ∧
        pjoin2 staging idm ≠ tempPathOf fs f info)
    (hpre : lookupKV fs (pjoin2 info.targetDir (sanitize f)) = some e₀)
    (hpol : info.metadata.onDuplicateFiles ≠ some numberLit) :
    ∃ msg fsE, concatenateAndCleanup staging fs f n info = Except.error (msg, fsE) ∧
      lookupKV fsE (pjoin2 info.targetDir (sanitize f)) = none := by
  have hfinal : finalPathOf fs f info = pjoin2 info.targetDir (sanitize f) := by
    rw [finalPathOf, finalNameOf,
      resolveDuplicate_unchanged fs info.targetDir (sanitize f)
        info.metadata.onDuplicateFiles (fun hc => hpol hc.2)]
  obtain ⟨msg, fsE, h1, h2, h3⟩ :=
    concatenateAndCleanup_error_state staging fs f n info σ B m hm hall hmiss
  rw [hfinal] at h2
  exact ⟨msg, fsE, h1, h2⟩

def c10staging : Str := "/workspace/UPLOAD_STAGING_DIR".data

def c10name : Str := "f.bin".data

def c10info : UploadInfo :=
  { parts := [1, 2], metadata := {}, targetDir := "/t".data,
    uploadIds := [(1, "sidA".data)], timestamp := 0 }

def c10fs : FS :=
  [(pjoin2 ("/t".data) (sanitize ("f.bin".data)), Entry.file [7]),
   (pjoin2 c10staging ("sidA".data), Entry.file [5])]

/-- Witness for claim C10: a same-named file pre-existed at the destination
and the upload uses no number policy; the failing concatenation deletes it. -/
theorem concatenateAndCleanup_error_deletes_destination_witness :
    ∃ msg fsE, concatenateAndCleanup c10staging c10fs c10name 2 c10info =
        Except.error (msg, fsE) ∧
      lookupKV fsE (pjoin2 c10info.targetDir (sanitize c10name)) = none :=
  concatenateAndCleanup_error_deletes_destination c10staging c10fs c10name 2 c10info
    (fun _ => "sidA".data) (fun _ => [5]) 2 (Entry.file [7]) (by decide) (by decide)
    (Or.inl (by decide)) (by decide) (by decide)

/-! ## Claim C7: single-file publish with missing staged content -/

theorem lookupKV_ensureDirIfPath_ne (fs : FS) (mpath : Option Str) (td q : Str)
    (h : q ≠ td) : lookupKV (ensureDirIfPath fs mpath td) q = lookupKV fs q := by
  rw [ensureDirIfPath.eq_def]
  cases mpath with
  | none => rfl
  | some p =>
    dsimp only
    by_cases hc : p ≠ [] ∧ ¬ FS.existsp fs td
    · rw [if_pos hc, lookupKV_setKV, if_neg (fun hh => h hh.symm)]
    · rw [if_neg hc]

/-- Claim C7, amended: when the staged content is absent at publish time, the
handler reports the missing-staged outcome without throwing, performs no
rename, deletes no metadata sidecar, and leaves the filesystem unchanged
except for the ensured target directory — in particular the content at the
final target path (and every other path) is exactly what it was before. -/
theorem handleSingleFileUpload_missing_staged_drops (root staging : Str) (fs : FS)
    (uploadId : Str) (meta : Meta)
    (hstaged : lookupKV fs (pjoin2 staging uploadId) = none)
    (htd1 : resolveTargetDir root meta.path ≠ pjoin2 staging uploadId)
    (htd2 : resolveTargetDir root meta.path ≠ pjoin2 staging (uploadId ++ jsonLit)) :
    (handleSingleFileUpload root staging fs uploadId meta).2 =
      SingleOutcome.missingStaged ∧
    (handleSingleFileUpload root staging fs uploadId meta).1 =
      ensureDirIfPath fs meta.path (resolveTargetDir root meta.path) ∧
    lookupKV (handleSingleFileUpload root staging fs uploadId meta).1
        (pjoin2 staging (uploadId ++ jsonLit)) =
      lookupKV fs (pjoin2 staging (uploadId ++ jsonLit)) ∧
    ∀ q : Str, q ≠ resolveTargetDir root meta.path →
      lookupKV (handleSingleFileUpload root staging fs uploadId meta).1 q =
        lookupKV fs q := by
  have hfs1 : lookupKV (ensureDirIfPath fs meta.path (resolveTargetDir root meta.path))
      (pjoin2 staging uploadId) = none := by
    rw [lookupKV_ensureDirIfPath_ne _ _ _ _ (fun hh => htd1 hh.symm)]
    exact hstaged
  have hex : FS.existsp (ensureDirIfPath fs meta.path (resolveTargetDir root meta.path))
      (pjoin2 staging uploadId) = false := by
    rw [FS.existsp, hfs1]
    rfl
  have hmain : handleSingleFileUpload root staging fs uploadId meta =
      (ensureDirIfPath fs meta.path (resolveTargetDir root meta.path),
        SingleOutcome.missingStaged) := by
    rw [handleSingleFileUpload]
    simp only [hex]
    simp
  refine ⟨by rw [hmain], by rw [hmain], ?_, ?_⟩
  · rw [hmain]
    exact lookupKV_ensureDirIfPath_ne _ _ _ _ (fun hh => htd2 hh.symm)
  · intro q hq
    rw [hmain]
    exact lookupKV_ensureDirIfPath_ne _ _ _ _ hq

def c7root : Str := "/r".data

def c7staging : Str := "/r/UPLOAD_STAGING_DIR".data

def c7meta : Meta :=
  { filename := some ("a.txt".data), useOriginalFilename := some trueLit }

def c7fs : FS := [(pjoin2 c7root (sanitize ("a.txt".data)), Entry.file [1])]

/-- Counterexample to claim C7 as stated: with a same-named file already at
the final target path (overwrite policy) and the staged content missing, the
session is dropped but a file does remain at the final target path, so the
claim that no file exists there after the drop is false. -/
theorem handleSingleFileUpload_missing_staged_counterexample :
    (handleSingleFileUpload c7root c7staging c7fs ("u1".data) c7meta).2 =
      SingleOutcome.missingStaged ∧
    lookupKV (handleSingleFileUpload c7root c7staging c7fs ("u1".data) c7meta).1
      (pjoin2 c7root (sanitize ("a.txt".data))) = some (Entry.file [1]) := by
  decide

/-- Witness for the amended claim C7. -/
theorem handleSingleFileUpload_missing_staged_drops_witness :
    (handleSingleFileUpload c7root c7staging c7fs ("u1".data) c7meta).2 =
      SingleOutcome.missingStaged ∧
    (handleSingleFileUpload c7root c7staging c7fs ("u1".data) c7meta).1 =
      ensureDirIfPath c7fs c7meta.path (resolveTargetDir c7root c7meta.path) ∧
    lookupKV (handleSingleFileUpload c7root c7staging c7fs ("u1".data) c7meta).1
        (pjoin2 c7staging (("u1".data) ++ jsonLit)) =
      lookupKV c7fs (pjoin2 c7staging (("u1".data) ++ jsonLit)) ∧
    ∀ q : Str, q ≠ resolveTargetDir c7root c7meta.path →
      lookupKV (handleSingleFileUpload c7root c7staging c7fs ("u1".data) c7meta).1 q =
        lookupKV c7fs q :=
  handleSingleFileUpload_missing_staged_drops c7root c7staging c7fs ("u1".data) c7meta
    (by decide) (by decide) (by decide)

/-! ## Claim C8: the orphan reaper and its strict timeout -/

theorem lookupKV_none_of_not_mem_keys {κ α : Type} [DecidableEq κ] (l : List (κ × α))
    (k : κ) (h : k ∉ l.map Prod.fst) : lookupKV l k = none := by
  cases hl : lookupKV l k with
  | none => rfl
  | some v =>
    exact absurd (lookupKV_isSome_mem_keys (by rw [hl]; rfl)) h

theorem lookupKV_filter_none {κ α : Type} [DecidableEq κ] (l : List (κ × α))
    (p : κ × α → Bool) (k : κ) (h : lookupKV l k = none) :
    lookupKV (l.filter p) k = none := by
  induction l with
  | nil => simp [lookupKV]
  | cons hd tl ih =>
    obtain ⟨k₀, v₀⟩ := hd
    by_cases hk : k₀ = k
    · subst hk
      simp [lookupKV] at h
    · simp only [lookupKV, if_neg hk] at h
      by_cases hp : p (k₀, v₀)
      · rw [List.filter_cons_of_pos hp]
        simp only [lookupKV, if_neg hk]
        exact ih h
      · rw [List.filter_cons_of_neg hp]
        exact ih h

theorem lookupKV_filter {κ α : Type} [DecidableEq κ] (l : List (κ × α))
    (p : κ × α → Bool) (k : κ) (v : α)
    (hnd : (l.map Prod.fst).Nodup) (h : lookupKV l k = some v) :
    lookupKV (l.filter p) k = if p (k, v) then some v else none := by
  induction l with
  | nil => simp [lookupKV] at h
  | cons hd tl ih =>
    obtain ⟨k₀, v₀⟩ := hd
    simp only [List.map_cons, List.nodup_cons] at hnd
    by_cases hk : k₀ = k
    · subst hk
      simp only [lookupKV, if_true, eq_self_iff_true, Option.some.injEq] at h
      by_cases hp : p (k₀, v₀)
      · rw [← h, List.filter_cons_of_pos hp, if_pos hp]
        simp [lookupKV]
      · rw [← h, List.filter_cons_of_neg hp, if_neg hp]
        exact lookupKV_filter_none tl p k₀ (lookupKV_none_of_not_mem_keys tl k₀ hnd.1)
    · simp only [lookupKV, if_neg hk] at h
      have := ih hnd.2 h
      by_cases hp : p (k₀, v₀)
      · rw [List.filter_cons_of_pos hp]
        simp only [lookupKV, if_neg hk]
        exact this
      · rw [List.filter_cons_of_neg hp]
        exact this

theorem mem_eq_of_nodup_keys {κ α : Type} [DecidableEq κ] {l : List (κ × α)}
    (hnd : (l.map Prod.fst).Nodup) {k : κ} {v w : α}
    (h1 : (k, v) ∈ l) (h2 : (k, w) ∈ l) : v = w := by
  induction l with
  | nil => simp at h1
  | cons hd tl ih =>
    simp only [List.map_cons, List.nodup_cons] at hnd
    rcases List.mem_cons.mp h1 with e1 | m1 <;> rcases List.mem_cons.mp h2 with e2 | m2
    · rw [← e1] at e2
      exact (Prod.mk.inj e2).2.symm
    · exfalso
      apply hnd.1
      rw [← e1]
      exact List.mem_map.mpr ⟨(k, w), m2, rfl⟩
    · exfalso
      apply hnd.1
      rw [← e2]
      exact List.mem_map.mpr ⟨(k, v), m1, rfl⟩
    · exact ih hnd.2 m1 m2

theorem lookupKV_condRemove_none (fs : FS) (x q : Str) (h : lookupKV fs q = none) :
    lookupKV (if FS.existsp fs x then removeKV fs x else fs) q = none := by
  by_cases hqx : q = x
  · subst hqx
    exact lookupKV_condRemove_self fs q
  · rw [lookupKV_condRemove _ _ _ hqx]
    exact h

theorem lookupKV_deleteOnePart_none (staging : Str) (fs : FS) (kv : Nat × Str) (q : Str)
    (h : lookupKV fs q = none) : lookupKV (deleteOnePart staging fs kv) q = none := by
  rw [deleteOnePart]
  exact lookupKV_condRemove_none _ _ _ (lookupKV_condRemove_none _ _ _ h)

theorem lookupKV_deleteOnePart_ne (staging : Str) (fs : FS) (kv : Nat × Str) (q : Str)
    (h1 : q ≠ pjoin2 staging kv.2) (h2 : q ≠ pjoin2 staging (kv.2 ++ jsonLit)) :
    lookupKV (deleteOnePart staging fs kv) q = lookupKV fs q := by
  rw [deleteOnePart, lookupKV_condRemove _ _ _ h2, lookupKV_condRemove _ _ _ h1]

theorem deleteOnePart_kills (staging : Str) (fs : FS) (kv : Nat × Str) :
    lookupKV (deleteOnePart staging fs kv) (pjoin2 staging kv.2) = none ∧
    lookupKV (deleteOnePart staging fs kv) (pjoin2 staging (kv.2 ++ jsonLit)) = none := by
  constructor
  · rw [deleteOnePart]
    by_cases hq : pjoin2 staging kv.2 = pjoin2 staging (kv.2 ++ jsonLit)
    · rw [hq]
      exact lookupKV_condRemove_self _ _
    · rw [lookupKV_condRemove _ _ _ hq]
      exact lookupKV_condRemove_self _ _
  · rw [deleteOnePart]
    exact lookupKV_condRemove_self _ _

theorem foldl_deleteOnePart_none (staging : Str) (l : List (Nat × Str)) :
    ∀ (fs : FS) (q : Str), lookupKV fs q = none →
      lookupKV (l.foldl (deleteOnePart staging) fs) q = none := by
  induction l with
  | nil => intro fs q h; exact h
  | cons hd tl ih =>
    intro fs q h
    rw [List.foldl_cons]
    exact ih _ q (lookupKV_deleteOnePart_none staging fs hd q h)

theorem deleteGroupFiles_none_preserved (staging : Str) (info : UploadInfo) (fs : FS)
    (q : Str) (h : lookupKV fs q = none) :
    lookupKV (deleteGroupFiles staging fs info) q = none := by
  rw [deleteGroupFiles]
  exact foldl_deleteOnePart_none staging info.uploadIds fs q h

theorem foldl_deleteOnePart_kills (staging : Str) (l : List (Nat × Str)) :
    ∀ (fs : FS) (kv : Nat × Str), kv ∈ l →
      lookupKV (l.foldl (deleteOnePart staging) fs) (pjoin2 staging kv.2) = none ∧
      lookupKV (l.foldl (deleteOnePart staging) fs)
        (pjoin2 staging (kv.2 ++ jsonLit)) = none := by
  induction l with
  | nil => intro fs kv h; simp at h
  | cons hd tl ih =>
    intro fs kv h
    rw [List.foldl_cons]
    rcases List.mem_cons.mp h with he | hm
    · subst he
      exact ⟨foldl_deleteOnePart_none staging tl _ _ (deleteOnePart_kills staging fs kv).1,
        foldl_deleteOnePart_none staging tl _ _ (deleteOnePart_kills staging fs kv).2⟩
    · exact ih _ kv hm

theorem deleteGroupFiles_kills (staging : Str) (info : UploadInfo) (fs : FS)
    (kv : Nat × Str) (hkv : kv ∈ info.uploadIds) :
    lookupKV (deleteGroupFiles staging fs info) (pjoin2 staging kv.2) = none ∧
    lookupKV (deleteGroupFiles staging fs info)
      (pjoin2 staging (kv.2 ++ jsonLit)) = none := by
  rw [deleteGroupFiles]
  exact foldl_deleteOnePart_kills staging info.uploadIds fs kv hkv

theorem foldl_deleteOnePart_frame (staging : Str) (l : List (Nat × Str)) (q : Str)
    (h : ∀ kv ∈ l, q ≠ pjoin2 staging kv.2 ∧ q ≠ pjoin2 staging (kv.2 ++ jsonLit)) :
    ∀ fs : FS, lookupKV (l.foldl (deleteOnePart staging) fs) q = lookupKV fs q := by
  induction l with
  | nil => intro fs; rfl
  | cons hd tl ih =>
    intro fs
    rw [List.foldl_cons]
    rw [ih (fun kv hkv => h kv (List.mem_cons_of_mem _ hkv))]
    exact lookupKV_deleteOnePart_ne staging fs hd q (h hd (List.mem_cons_self _ _)).1
      (h hd (List.mem_cons_self _ _)).2

theorem deleteGroupFiles_frame (staging : Str) (info : UploadInfo) (q : Str)
    (h : ∀ kv ∈ info.uploadIds,
      q ≠ pjoin2 staging kv.2 ∧ q ≠ pjoin2 staging (kv.2 ++ jsonLit)) :
    ∀ fs : FS, lookupKV (deleteGroupFiles staging fs info) q = lookupKV fs q := by
  intro fs
  rw [deleteGroupFiles]
  exact foldl_deleteOnePart_frame staging info.uploadIds q h fs

theorem foldl_groups_none (staging : Str) (groups : List (Str × UploadInfo)) :
    ∀ (fs : FS) (q : Str), lookupKV fs q = none →
      lookupKV (groups.foldl (fun fsAcc x => deleteGroupFiles staging fsAcc x.2) fs) q =
        none := by
  induction groups with
  | nil => intro fs q h; exact h
  | cons hd tl ih =>
    intro fs q h
    rw [List.foldl_cons]
    exact ih _ q (deleteGroupFiles_none_preserved staging hd.2 fs q h)

theorem foldl_groups_kills (staging : Str) (groups : List (Str × UploadInfo)) :
    ∀ (fs : FS) (g : Str × UploadInfo), g ∈ groups → ∀ kv ∈ g.2.uploadIds,
      lookupKV (groups.foldl (fun fsAcc x => deleteGroupFiles staging fsAcc x.2) fs)
        (pjoin2 staging kv.2) = none ∧
      lookupKV (groups.foldl (fun fsAcc x => deleteGroupFiles staging fsAcc x.2) fs)
        (pjoin2 staging (kv.2 ++ jsonLit)) = none := by
  induction groups with
  | nil => intro fs g h; simp at h
  | cons hd tl ih =>
    intro fs g h kv hkv
    rw [List.foldl_cons]
    rcases List.mem_cons.mp h with he | hm
    · subst he
      exact ⟨foldl_groups_none staging tl _ _ (deleteGroupFiles_kills staging g.2 fs kv hkv).1,
        foldl_groups_none staging tl _ _ (deleteGroupFiles_kills staging g.2 fs kv hkv).2⟩
    · exact ih _ g hm kv hkv

theorem foldl_groups_frame (staging : Str) (groups : List (Str × UploadInfo)) (q : Str)
    (h : ∀ g ∈ groups, ∀ kv ∈ (g : Str × UploadInfo).2.uploadIds,
      q ≠ pjoin2 staging kv.2 ∧ q ≠ pjoin2 staging (kv.2 ++ jsonLit)) :
    ∀ fs : FS,
      lookupKV (groups.foldl (fun fsAcc x => deleteGroupFiles staging fsAcc x.2) fs) q =
        lookupKV fs q := by
  induction groups with
  | nil => intro fs; rfl
  | cons hd tl ih =>
    intro fs
    rw [List.foldl_cons]
    rw [ih (fun g hg kv hkv => h g (List.mem_cons_of_mem _ hg) kv hkv)]
    exact deleteGroupFiles_frame staging hd.2 q
      (fun kv hkv => h hd (List.mem_cons_self _ _) kv hkv) fs

/-- Claim C8, amended: the reaping condition of the code is strict, so a group
created at time T is removed — with all of its recorded staged part files and
JSON sidecars deleted — by a sweep at any time strictly greater than
T + PART_TIMEOUT, while a sweep at any time up to and including
T + PART_TIMEOUT (in particular at T + PART_TIMEOUT − ε) leaves the group and
its staged files untouched. -/
theorem cleanupOrphanedParts_strict_timeout (staging : Str) (st : ServerState) (f : Str)
    (info : UploadInfo) (T now : Nat)
    (hkeys : (st.parted.map Prod.fst).Nodup)
    (hf : lookupKV st.parted f = some info)
    (hT : info.timestamp = T) :
    (T + PART_TIMEOUT < now →
      lookupKV (cleanupOrphanedParts staging st now).parted f = none ∧
      ∀ kv ∈ info.uploadIds,
        lookupKV (cleanupOrphanedParts staging st now).fs (pjoin2 staging kv.2) = none ∧
        lookupKV (cleanupOrphanedParts staging st now).fs
          (pjoin2 staging (kv.2 ++ jsonLit)) = none) ∧
    (now ≤ T + PART_TIMEOUT →
      lookupKV (cleanupOrphanedParts staging st now).parted f = some info ∧
      ((∀ x ∈ st.parted, x.1 ≠ f → ∀ kv' ∈ x.2.uploadIds, ∀ kv ∈ info.uploadIds,
          kv'.2 ≠ kv.2 ∧ kv'.2 ≠ kv.2 ++ jsonLit ∧ kv'.2 ++ jsonLit ≠ kv.2) →
        ∀ kv ∈ info.uploadIds,
          lookupKV (cleanupOrphanedParts staging st now).fs (pjoin2 staging kv.2) =
            lookupKV st.fs (pjoin2 staging kv.2) ∧
          lookupKV (cleanupOrphanedParts staging st now).fs
              (pjoin2 staging (kv.2 ++ jsonLit)) =
            lookupKV st.fs (pjoin2 staging (kv.2 ++ jsonLit)))) := by
  have hparted : (cleanupOrphanedParts staging st now).parted =
      st.parted.filter (fun x => ! isOrphaned now x) := rfl
  have hfs : (cleanupOrphanedParts staging st now).fs =
      (st.parted.filter (isOrphaned now)).foldl
        (fun fsAcc x => deleteGroupFiles staging fsAcc x.2) st.fs := rfl
  constructor
  · intro hlate
    have horphan : isOrphaned now (f, info) = true := by
      simp only [isOrphaned, hT, decide_eq_true_eq]
      omega
    constructor
    · rw [hparted, lookupKV_filter st.parted _ f info hkeys hf]
      rw [if_neg]
      simp [horphan]
    · intro kv hkv
      rw [hfs]
      exact foldl_groups_kills staging (st.parted.filter (isOrphaned now)) st.fs (f, info)
        (List.mem_filter.mpr ⟨lookupKV_mem hf, horphan⟩) kv hkv
  · intro hearly
    have hnorph : isOrphaned now (f, info) = false := by
      simp only [isOrphaned, hT, decide_eq_false_iff_not]
      omega
    constructor
    · rw [hparted, lookupKV_filter st.parted _ f info hkeys hf]
      rw [if_pos]
      simp [hnorph]
    · intro hdisj kv hkv
      have hgroups : ∀ g ∈ st.parted.filter (isOrphaned now),
          ∀ kv' ∈ (g : Str × UploadInfo).2.uploadIds,
          kv'.2 ≠ kv.2 ∧ kv'.2 ≠ kv.2 ++ jsonLit ∧ kv'.2 ++ jsonLit ≠ kv.2 := by
        intro g hg kv' hkv'
        have hgmem : g ∈ st.parted := List.mem_of_mem_filter hg
        have hgorph : isOrphaned now g = true := List.of_mem_filter hg
        have hgne : g.1 ≠ f := by
          intro hc
          have hginfo : (f, g.2) ∈ st.parted := by
            rw [← hc]
            exact hgmem
          have := mem_eq_of_nodup_keys hkeys hginfo (lookupKV_mem hf)
          rw [show g = (g.1, g.2) from rfl, hc, this] at hgorph
          rw [hgorph] at hnorph
          exact absurd hnorph (by simp)
        exact hdisj g hgmem hgne kv' hkv' kv hkv
      constructor
      · rw [hfs]
        refine foldl_groups_frame staging _ _ ?_ st.fs
        intro g hg kv' hkv'
        obtain ⟨h1, h2, h3⟩ := hgroups g hg kv' hkv'
        exact ⟨fun hc => h1 (pjoin2_inj_right hc).symm,
          fun hc => h3 (pjoin2_inj_right hc).symm⟩
      · rw [hfs]
        refine foldl_groups_frame staging _ _ ?_ st.fs
        intro g hg kv' hkv'
        obtain ⟨h1, h2, h3⟩ := hgroups g hg kv' hkv'
        refine ⟨fun hc => h2 (pjoin2_inj_right hc).symm, fun hc => ?_⟩
        have := (pjoin2_inj_right hc).symm
        exact h1 (List.append_cancel_right this)

def c8staging : Str := "/s".data

def c8info : UploadInfo :=
  { parts := [1], metadata := {}, targetDir := "/t".data,
    uploadIds := [(1, "sidZ".data)], timestamp := 0 }

def c8key : Str := "orig.bin".data

def c8st : ServerState :=
  { fs := [(pjoin2 c8staging ("sidZ".data), Entry.file [9])],
    parted := [(c8key, c8info)] }

/-- Counterexample to claim C8 as stated: a sweep at exactly T + timeout
(here T = 0, so at PART_TIMEOUT, a time ≥ T + timeout) removes nothing — the
group and its staged file are untouched because the reaping condition of the
code is strict. -/
theorem cleanupOrphanedParts_at_timeout_counterexample :
    c8info.timestamp + PART_TIMEOUT ≤ 0 + PART_TIMEOUT ∧
    cleanupOrphanedParts c8staging c8st (0 + PART_TIMEOUT) = c8st := by
  constructor
  · decide
  · decide

/-- Witness for the amended claim C8, at a sweep one millisecond past the
timeout (removal) and at the timeout itself (untouched). -/
theorem cleanupOrphanedParts_strict_timeout_witness :
    (0 + PART_TIMEOUT < PART_TIMEOUT + 1 →
      lookupKV (cleanupOrphanedParts c8staging c8st (PART_TIMEOUT + 1)).parted c8key =
        none ∧
      ∀ kv ∈ c8info.uploadIds,
        lookupKV (cleanupOrphanedParts c8staging c8st (PART_TIMEOUT + 1)).fs
          (pjoin2 c8staging kv.2) = none ∧
        lookupKV (cleanupOrphanedParts c8staging c8st (PART_TIMEOUT + 1)).fs
          (pjoin2 c8staging (kv.2 ++ jsonLit)) = none) ∧
    (PART_TIMEOUT + 1 ≤ 0 + PART_TIMEOUT →
      lookupKV (cleanupOrphanedParts c8staging c8st (PART_TIMEOUT + 1)).parted c8key =
        some c8info ∧
      ((∀ x ∈ c8st.parted, x.1 ≠ c8key → ∀ kv' ∈ x.2.uploadIds,
          ∀ kv ∈ c8info.uploadIds,
          kv'.2 ≠ kv.2 ∧ kv'.2 ≠ kv.2 ++ jsonLit ∧ kv'.2 ++ jsonLit ≠ kv.2) →
        ∀ kv ∈ c8info.uploadIds,
          lookupKV (cleanupOrphanedParts c8staging c8st (PART_TIMEOUT + 1)).fs
              (pjoin2 c8staging kv.2) =
            lookupKV c8st.fs (pjoin2 c8staging kv.2) ∧
          lookupKV (cleanupOrphanedParts c8staging c8st (PART_TIMEOUT + 1)).fs
              (pjoin2 c8staging (kv.2 ++ jsonLit)) =
            lookupKV c8st.fs (pjoin2 c8staging (kv.2 ++ jsonLit)))) :=
  cleanupOrphanedParts_strict_timeout c8staging c8st c8key c8info 0 (PART_TIMEOUT + 1)
    (by decide) (by decide) (by decide)

/-! ## Claim C5: the pre-upload duplicate guard -/

theorem fsCall_none {α : Type} (site : Nat) (fs : FS) (a : α) :
    fsCall none site fs a = Except.ok a := by
  rw [fsCall, if_neg (by simp)]

theorem existsp_ensureDir_pjoin (fs : FS) (mp : Option Str) (td name : Str) :
    FS.existsp (ensureDirIfPath fs mp td) (pjoin2 td name) =
      FS.existsp fs (pjoin2 td name) := by
  rw [FS.existsp, FS.existsp, lookupKV_ensureDirIfPath_ne _ _ _ _ (pjoin2_ne_dir td name)]

theorem guardTargetStep_none (root : Str) (fs : FS) (m : Meta) :
    guardTargetStep root fs m none = Except.ok (resolveTargetDir root m.path,
      ensureDirIfPath fs m.path (resolveTargetDir root m.path)) := by
  rw [guardTargetStep.eq_def]
  cases hp : m.path with
  | none =>
    dsimp only
    rw [resolveTargetDir, ensureDirIfPath]
  | some p =>
    dsimp only
    by_cases hpe : p = []
    · rw [if_pos hpe, show resolveTargetDir root (some p) = root from by
        rw [resolveTargetDir, if_pos hpe]]
      rw [ensureDirIfPath, if_neg (by simp [hpe])]
    · rw [if_neg hpe, fsCall_none]
      dsimp only
      by_cases hex : FS.existsp fs (resolveTargetDir root (some p))
      · rw [if_pos hex, ensureDirIfPath, if_neg (by simp [hex])]
      · rw [if_neg hex, fsCall_none]
        dsimp only
        rw [ensureDirIfPath, if_pos ⟨hpe, hex⟩]

theorem guardTargetStep_fault (root : Str) (fs : FS) (m : Meta) (k : Nat) :
    (∃ msg fsE, guardTargetStep root fs m (some k) = Except.error (msg, fsE)) ∨
    guardTargetStep root fs m (some k) = guardTargetStep root fs m none := by
  rw [guardTargetStep_none, guardTargetStep.eq_def]
  cases hp : m.path with
  | none =>
    dsimp only
    right
    rw [resolveTargetDir, ensureDirIfPath]
  | some p =>
    dsimp only
    by_cases hpe : p = []
    · rw [if_pos hpe]
      right
      rw [show resolveTargetDir root (some p) = root from by
        rw [resolveTargetDir, if_pos hpe]]
      rw [ensureDirIfPath, if_neg (by simp [hpe])]
    · rw [if_neg hpe]
      by_cases hk0 : (some k : Option Nat) = some 0
      · refine Or.inl ⟨internalErrMsg, fs, ?_⟩
        rw [fsCall, if_pos hk0]
      · rw [show fsCall (some k) 0 fs (FS.existsp fs (resolveTargetDir root (some p))) =
          Except.ok (FS.existsp fs (resolveTargetDir root (some p))) from by
            rw [fsCall, if_neg hk0]]
        dsimp only
        by_cases hex : FS.existsp fs (resolveTargetDir root (some p))
        · rw [if_pos hex]
          right
          rw [ensureDirIfPath, if_neg (by simp [hex])]
        · rw [if_neg hex]
          by_cases hk1 : (some k : Option Nat) = some 1
          · refine Or.inl ⟨internalErrMsg, fs, ?_⟩
            rw [fsCall, if_pos hk1]
          · rw [show fsCall (some k) 1 fs (setKV fs (resolveTargetDir root (some p))
              Entry.dir) = Except.ok (setKV fs (resolveTargetDir root (some p))
              Entry.dir) from by rw [fsCall, if_neg hk1]]
            dsimp only
            right
            rw [ensureDirIfPath, if_pos ⟨hpe, hex⟩]

theorem guardBody_none_char (root : Str) (fs : FS) (m : Meta)
    (hcond : m.useOriginalFilename = some trueLit ∧ truthy m.filename ∧
      m.onDuplicateFiles = some preventLit) :
    guardBody root fs m none = Except.ok
      ((if FS.existsp fs (pjoin2 (resolveTargetDir root m.path)
          (sanitize (m.filename.getD []))) then GuardResult.conflict
        else GuardResult.next),
        ensureDirIfPath fs m.path (resolveTargetDir root m.path)) := by
  rw [guardBody, if_pos hcond, guardTargetStep_none]
  dsimp only
  rw [fsCall_none]
  dsimp only
  rw [show FS.existsp (ensureDirIfPath fs m.path (resolveTargetDir root m.path))
      (pjoin2 (resolveTargetDir root m.path) (sanitize (m.filename.getD []))) =
      FS.existsp fs (pjoin2 (resolveTargetDir root m.path)
        (sanitize (m.filename.getD []))) from
    existsp_ensureDir_pjoin fs m.path (resolveTargetDir root m.path)
      (sanitize (m.filename.getD []))]
  by_cases hex : FS.existsp fs (pjoin2 (resolveTargetDir root m.path)
      (sanitize (m.filename.getD [])))
  · rw [if_pos hex, if_pos hex]
  · rw [if_neg hex, if_neg hex]

/-- Claim C5: for a POST session-creation request with decoded metadata, the
guard refuses with a conflict exactly when useOriginalFilename is the string
true, the filename is truthy, the policy is prevent, and the sanitized
filename already exists in the resolved target directory; in every other case
(other policies such as number, missing or falsy fields, a free target path)
the request falls through to next, and an injected internal error at any
filesystem call site either fires and falls through to next (fail open) or
never fires and leaves the outcome unchanged. -/
theorem duplicateCheck_prevent_conflict_fail_open (root : Str) (fs : FS) (m : Meta) :
    ((m.useOriginalFilename = some trueLit ∧ truthy m.filename ∧
        m.onDuplicateFiles = some preventLit) →
      FS.existsp fs (pjoin2 (resolveTargetDir root m.path)
          (sanitize (m.filename.getD []))) = true →
      (duplicateCheck root fs postLit (some m) none).1 = GuardResult.conflict) ∧
    ((m.useOriginalFilename = some trueLit ∧ truthy m.filename ∧
        m.onDuplicateFiles = some preventLit) →
      FS.existsp fs (pjoin2 (resolveTargetDir root m.path)
          (sanitize (m.filename.getD []))) = false →
      (duplicateCheck root fs postLit (some m) none).1 = GuardResult.next) ∧
    (¬(m.useOriginalFilename = some trueLit ∧ truthy m.filename ∧
        m.onDuplicateFiles = some preventLit) →
      ∀ failAt : Option Nat,
        (duplicateCheck root fs postLit (some m) failAt).1 = GuardResult.next) ∧
    (∀ k : Nat,
      (duplicateCheck root fs postLit (some m) (some k)).1 = GuardResult.next ∨
      duplicateCheck root fs postLit (some m) (some k) =
        duplicateCheck root fs postLit (some m) none) := by
  have hdc : ∀ failAt, duplicateCheck root fs postLit (some m) failAt =
      match guardBody root fs m failAt with
      | Except.ok r => r
      | Except.error (_, fsE) => (GuardResult.next, fsE) := by
    intro failAt
    rw [duplicateCheck, if_pos rfl]
  refine ⟨?_, ?_, ?_, ?_⟩
  · intro hcond hex
    rw [hdc none, guardBody_none_char root fs m hcond]
    dsimp only
    rw [if_pos hex]
  · intro hcond hex
    rw [hdc none, guardBody_none_char root fs m hcond]
    dsimp only
    rw [if_neg (by rw [hex]; simp)]
  · intro hcond failAt
    rw [hdc failAt, guardBody, if_neg hcond]
  · intro k
    by_cases hcond : m.useOriginalFilename = some trueLit ∧ truthy m.filename ∧
        m.onDuplicateFiles = some preventLit
    · rcases guardTargetStep_fault root fs m k with ⟨msg, fsE, herr⟩ | hsame
      · left
        rw [hdc (some k), guardBody, if_pos hcond, herr]
      · by_cases hk2 : (some k : Option Nat) = some 2
        · left
          rw [hdc (some k), guardBody, if_pos hcond, hsame, guardTargetStep_none]
          dsimp only
          rw [fsCall, if_pos hk2]
        · right
          rw [hdc (some k), hdc none]
          rw [show guardBody root fs m (some k) = guardBody root fs m none from by
            rw [guardBody, guardBody, if_pos hcond, if_pos hcond, hsame,
              guardTargetStep_none]
            dsimp only
            rw [show fsCall (some k) 2
                (ensureDirIfPath fs m.path (resolveTargetDir root m.path))
                (FS.existsp (ensureDirIfPath fs m.path (resolveTargetDir root m.path))
                  (pjoin2 (resolveTargetDir root m.path)
                    (sanitize (m.filename.getD [])))) =
                Except.ok (FS.existsp
                  (ensureDirIfPath fs m.path (resolveTargetDir root m.path))
                  (pjoin2 (resolveTargetDir root m.path)
                    (sanitize (m.filename.getD [])))) from by
              rw [fsCall, if_neg hk2]]
            rw [fsCall_none]]
    · right
      rw [hdc (some k), hdc none]
      rw [show guardBody root fs m (some k) = guardBody root fs m none from by
        rw [guardBody, guardBody, if_neg hcond, if_neg hcond]]

def c5root : Str := "/r".data

def c5fs : FS := [(pjoin2 ("/r".data) (sanitize ("dup.txt".data)), Entry.file [1])]

def c5prevent : Meta :=
  { filename := some ("dup.txt".data), useOriginalFilename := some trueLit,
    onDuplicateFiles := some preventLit }

def c5number : Meta :=
  { filename := some ("dup.txt".data), useOriginalFilename := some trueLit,
    onDuplicateFiles := some numberLit }

/-- Witness for claim C5: an existing same-named file under the prevent
policy is refused with a conflict; under the number policy the session is
allowed; a fault injected at the final existence check either fires (next) or
leaves the outcome unchanged. -/
theorem duplicateCheck_prevent_conflict_fail_open_witness :
    (duplicateCheck c5root c5fs postLit (some c5prevent) none).1 =
      GuardResult.conflict ∧
    (duplicateCheck c5root c5fs postLit (some c5number) none).1 = GuardResult.next ∧
    ((duplicateCheck c5root c5fs postLit (some c5prevent) (some 2)).1 =
        GuardResult.next ∨
      duplicateCheck c5root c5fs postLit (some c5prevent) (some 2) =
        duplicateCheck c5root c5fs postLit (some c5prevent) none) :=
  ⟨(duplicateCheck_prevent_conflict_fail_open c5root c5fs c5prevent).1 (by decide)
      (by decide),
   (duplicateCheck_prevent_conflict_fail_open c5root c5fs c5number).2.2.1 (by decide)
      none,
   (duplicateCheck_prevent_conflict_fail_open c5root c5fs c5prevent).2.2.2 2⟩

/-! ## Claim C2: the part tracker triggers concatenation exactly once -/

theorem setAdd_not_mem (s : List Nat) (x : Nat) (h : x ∉ s) : setAdd s x = s ++ [x] := by
  rw [setAdd, if_neg h]

theorem setKV_map_append (σ : Nat → Str) (seen : List Nat) (k : Nat) (hk : k ∉ seen) :
    setKV (seen.map (fun j => (j, σ j))) k (σ k) =
      (seen ++ [k]).map (fun j => (j, σ j)) := by
  induction seen with
  | nil => simp [setKV]
  | cons s rest ih =>
    have hs : ¬ s = k := fun h => hk (by rw [h]; exact List.mem_cons_self _ _)
    have hk' : k ∉ rest := fun h => hk (List.mem_cons_of_mem _ h)
    simp only [List.map_cons, setKV, if_neg hs, List.cons_append]
    rw [ih hk']

theorem lookupKV_map_sigma (σ : Nat → Str) :
    ∀ (l : List Nat) (j : Nat), j ∈ l →
      lookupKV (l.map (fun i => (i, σ i))) j = some (σ j) := by
  intro l
  induction l with
  | nil => intro j hj; simp at hj
  | cons s rest ih =>
    intro j hj
    simp only [List.map_cons, lookupKV]
    by_cases hs : s = j
    · rw [if_pos hs, hs]
    · rw [if_neg hs]
      exact ih j (by rcases List.mem_cons.mp hj with h | h; exact absurd h.symm hs; exact h)

theorem ensureDirIfPath_idem (fs : FS) (mp : Option Str) (td : Str) :
    ensureDirIfPath (ensureDirIfPath fs mp td) mp td = ensureDirIfPath fs mp td := by
  rw [ensureDirIfPath.eq_def, ensureDirIfPath.eq_def]
  cases mp with
  | none => rfl
  | some p =>
    dsimp only
    by_cases hc : p ≠ [] ∧ ¬ FS.existsp fs td
    · rw [if_pos hc, if_neg]
      intro hcon
      apply hcon.2
      rw [FS.existsp, lookupKV_setKV, if_pos rfl]
      rfl
    · rw [if_neg hc, if_neg hc]

theorem handlePartedUpload_fresh (root staging : Str) (now : Nat) (f : Str) (n : Nat)
    (σ : Nat → Str) (mk : Nat → Meta) (pth dup : Option Str)
    (hmk : ∀ k, (mk k).originalFilename = some f ∧ (mk k).partNumber = some (natDec k) ∧
      (mk k).totalParts = some (natDec n) ∧ (mk k).path = pth ∧
      (mk k).onDuplicateFiles = dup)
    (st : ServerState) (k : Nat)
    (hnone : lookupKV st.parted f = none) :
    handlePartedUpload root staging st (σ k) (mk k) now =
      handlePartedUpload root staging
        ⟨st.fs, setKV st.parted f ⟨[], mk k, resolveTargetDir root pth, [], now⟩⟩
        (σ k) (mk k) now := by
  simp only [handlePartedUpload, (hmk k).1, Option.getD_some, (hmk k).2.2.2.1, hnone,
    lookupKV_setKV, eq_self_iff_true, if_true]

theorem handlePartedUpload_step (root staging : Str) (now : Nat) (f : Str) (n : Nat)
    (σ : Nat → Str) (mk : Nat → Meta) (pth dup : Option Str)
    (hmk : ∀ k, (mk k).originalFilename = some f ∧ (mk k).partNumber = some (natDec k) ∧
      (mk k).totalParts = some (natDec n) ∧ (mk k).path = pth ∧
      (mk k).onDuplicateFiles = dup)
    (st : ServerState) (k : Nat) (seen : List Nat) (m₁ : Meta)
    (hlook : lookupKV st.parted f =
      some ⟨seen, m₁, resolveTargetDir root pth, seen.map (fun j => (j, σ j)), now⟩)
    (hk : k ∉ seen) :
    handlePartedUpload root staging st (σ k) (mk k) now =
      (if (seen ++ [k]).length = n then
        match concatenateAndCleanup staging
            (ensureDirIfPath st.fs pth (resolveTargetDir root pth)) f n
            ⟨seen ++ [k], m₁, resolveTargetDir root pth,
              (seen ++ [k]).map (fun j => (j, σ j)), now⟩ with
        | Except.ok (fs2, _) =>
          (⟨fs2, removeKV (setKV st.parted f
            ⟨seen ++ [k], m₁, resolveTargetDir root pth,
              (seen ++ [k]).map (fun j => (j, σ j)), now⟩) f⟩, true, none)
        | Except.error (msg, fs2) =>
          (⟨fs2, setKV st.parted f
            ⟨seen ++ [k], m₁, resolveTargetDir root pth,
              (seen ++ [k]).map (fun j => (j, σ j)), now⟩⟩, true, some msg)
      else (⟨ensureDirIfPath st.fs pth (resolveTargetDir root pth),
        setKV st.parted f ⟨seen ++ [k], m₁, resolveTargetDir root pth,
          (seen ++ [k]).map (fun j => (j, σ j)), now⟩⟩, false, none)) := by
  have h2 : parseIntNat (mk k).partNumber = k := by
    rw [(hmk k).2.1, parseIntNat, Option.getD_some, parseDec_natDec]
  have h3 : parseIntNat (mk k).totalParts = n := by
    rw [(hmk k).2.2.1, parseIntNat, Option.getD_some, parseDec_natDec]
  simp only [handlePartedUpload, (hmk k).1, Option.getD_some, (hmk k).2.2.2.1, h2, h3,
    hlook, setAdd_not_mem seen k hk, setKV_map_append σ seen k hk]

theorem runParted_go (root staging : Str) (now : Nat) (f : Str) (n : Nat)
    (σ : Nat → Str) (B : Nat → Bytes) (mk : Nat → Meta) (pth dup : Option Str)
    (hmk : ∀ k, (mk k).originalFilename = some f ∧ (mk k).partNumber = some (natDec k) ∧
      (mk k).totalParts = some (natDec n) ∧ (mk k).path = pth ∧
      (mk k).onDuplicateFiles = dup)
    (fs₁ : FS) (m₁ : Meta)
    (hidem : ensureDirIfPath fs₁ pth (resolveTargetDir root pth) = fs₁)
    (hm₁ : m₁.onDuplicateFiles = dup)
    (hstaged : ∀ k ∈ List.range' 1 n,
      lookupKV fs₁ (pjoin2 staging (σ k)) = some (Entry.file (B k)))
    (hnet : ∀ k ∈ List.range' 1 n, pjoin2 staging (σ k) ≠
      pjoin2 (resolveTargetDir root pth)
        (resolveDuplicate fs₁ (resolveTargetDir root pth) (sanitize f) dup) ++ tmpLit)
    (hnef : ∀ k ∈ List.range' 1 n,
      pjoin2 (resolveTargetDir root pth)
          (resolveDuplicate fs₁ (resolveTargetDir root pth) (sanitize f) dup) ≠
        pjoin2 staging (σ k) ∧
      pjoin2 (resolveTargetDir root pth)
          (resolveDuplicate fs₁ (resolveTargetDir root pth) (sanitize f) dup) ≠
        pjoin2 staging (σ k ++ jsonLit)) :
    ∀ (rest seen : List Nat) (X : FS) (parted : List (Str × UploadInfo)),
      rest ≠ [] →
      ensureDirIfPath X pth (resolveTargetDir root pth) = fs₁ →
      (seen ++ rest).Perm (List.range' 1 n) →
      lookupKV parted f =
        some ⟨seen, m₁, resolveTargetDir root pth, seen.map (fun j => (j, σ j)), now⟩ →
      ∃ fs4 parted',
        runParted root staging now ⟨X, parted⟩ (rest.map (fun k => (σ k, mk k))) =
          (⟨fs4, parted'⟩,
            List.replicate (rest.length - 1) ((false : Bool), (none : Option Str)) ++
              [((true : Bool), (none : Option Str))]) ∧
        lookupKV fs4 (pjoin2 (resolveTargetDir root pth)
          (resolveDuplicate fs₁ (resolveTargetDir root pth) (sanitize f) dup)) =
          some (Entry.file ((List.range' 1 n).map B).flatten) ∧
        lookupKV parted' f = none := by
  intro rest
  induction rest with
  | nil => intro seen X parted hne; exact absurd rfl hne
  | cons k rest' ih =>
    intro seen X parted _ hX hperm hlook
    have hnodup : (seen ++ k :: rest').Nodup :=
      hperm.nodup_iff.mpr (List.nodup_range' ..)
    have hkseen : k ∉ seen := by
      rcases List.nodup_append.mp hnodup with ⟨_, _, hdisj⟩
      intro hc
      exact hdisj hc (List.mem_cons_self _ _)
    have hstep := handlePartedUpload_step root staging now f n σ mk pth dup hmk
      ⟨X, parted⟩ k seen m₁ hlook hkseen
    cases rest' with
    | nil =>
      have hfull : (seen ++ [k]).length = n := by
        have := hperm.length_eq
        simp at this ⊢
        omega
      have hmem : ∀ j ∈ List.range' 1 n, j ∈ seen ++ [k] := by
        intro j hj
        exact (hperm.mem_iff).mpr hj
      have hids : ∀ j ∈ List.range' 1 n,
          lookupKV ((seen ++ [k]).map (fun i => (i, σ i))) j = some (σ j) :=
        fun j hj => lookupKV_map_sigma σ (seen ++ [k]) j (hmem j hj)
      have hfinal : finalPathOf fs₁ f
          ⟨seen ++ [k], m₁, resolveTargetDir root pth,
            (seen ++ [k]).map (fun j => (j, σ j)), now⟩ =
          pjoin2 (resolveTargetDir root pth)
            (resolveDuplicate fs₁ (resolveTargetDir root pth) (sanitize f) dup) := by
        rw [finalPathOf, finalNameOf]
        dsimp only
        rw [hm₁]
      have htempf : tempPathOf fs₁ f
          ⟨seen ++ [k], m₁, resolveTargetDir root pth,
            (seen ++ [k]).map (fun j => (j, σ j)), now⟩ =
          pjoin2 (resolveTargetDir root pth)
            (resolveDuplicate fs₁ (resolveTargetDir root pth) (sanitize f) dup) ++
            tmpLit := by
        rw [tempPathOf, hfinal]
      obtain ⟨fs4, hok, hcontent⟩ := concatenateAndCleanup_ok staging fs₁ f n
        ⟨seen ++ [k], m₁, resolveTargetDir root pth,
          (seen ++ [k]).map (fun j => (j, σ j)), now⟩ σ B hids hstaged
        (by rw [htempf]; exact hnet) (by rw [hfinal]; exact hnef)
      refine ⟨fs4, removeKV (setKV parted f
        ⟨seen ++ [k], m₁, resolveTargetDir root pth,
          (seen ++ [k]).map (fun j => (j, σ j)), now⟩) f, ?_, ?_, ?_⟩
      · simp only [List.map_cons, List.map_nil, runParted]
        rw [hstep, if_pos hfull]
        dsimp only
        rw [hX, hok]
        rfl
      · rw [← hfinal]
        exact hcontent
      · rw [lookupKV_removeKV, if_pos rfl]
    | cons k2 rest2 =>
      have hnfull : ¬ (seen ++ [k]).length = n := by
        have := hperm.length_eq
        simp at this ⊢
        omega
      obtain ⟨fs4, parted', hrun, hcontent, hnone⟩ := ih (seen ++ [k]) fs₁
        (setKV parted f ⟨seen ++ [k], m₁, resolveTargetDir root pth,
          (seen ++ [k]).map (fun j => (j, σ j)), now⟩)
        (by simp) hidem
        (by rw [List.append_assoc]; exact hperm)
        (by rw [lookupKV_setKV, if_pos rfl])
      refine ⟨fs4, parted', ?_, hcontent, hnone⟩
      rw [show ((k :: k2 :: rest2).map (fun j => (σ j, mk j))) =
        (σ k, mk k) :: ((k2 :: rest2).map (fun j => (σ j, mk j))) from rfl]
      rw [runParted]
      rw [hstep, if_neg hnfull]
      dsimp only
      rw [hX]
      rw [hrun]
      simp only [List.length_cons, Nat.add_sub_cancel]
      rw [List.replicate_succ]
      rfl

/-- Claim C2: feeding the n declared parts of one original filename in any
arrival order, concatenation is triggered exactly once — at the event where
the received-part count first equals totalParts (every earlier event reports
no trigger, the last reports the trigger) — and the file left at the final
path has the same bytes, the concatenation of the parts in part-number order,
for every arrival order. -/
theorem handlePartedUpload_triggers_once_any_order (root staging : Str) (fs₀ : FS)
    (parted₀ : List (Str × UploadInfo)) (f : Str) (n : Nat) (σ : Nat → Str)
    (B : Nat → Bytes) (mk : Nat → Meta) (pth dup : Option Str) (now : Nat)
    (l : List Nat)
    (hn : 1 ≤ n)
    (hperm : l.Perm (List.range' 1 n))
    (hmk : ∀ k, (mk k).originalFilename = some f ∧ (mk k).partNumber = some (natDec k) ∧
      (mk k).totalParts = some (natDec n) ∧ (mk k).path = pth ∧
      (mk k).onDuplicateFiles = dup)
    (hp0 : lookupKV parted₀ f = none)
    (hstaged0 : ∀ k ∈ List.range' 1 n,
      lookupKV fs₀ (pjoin2 staging (σ k)) = some (Entry.file (B k)))
    (hsd : ∀ k ∈ List.range' 1 n,
      pjoin2 staging (σ k) ≠ resolveTargetDir root pth)
    (hnet : ∀ k ∈ List.range' 1 n, pjoin2 staging (σ k) ≠
      pjoin2 (resolveTargetDir root pth)
        (resolveDuplicate (ensureDirIfPath fs₀ pth (resolveTargetDir root pth))
          (resolveTargetDir root pth) (sanitize f) dup) ++ tmpLit)
    (hnef : ∀ k ∈ List.range' 1 n,
      pjoin2 (resolveTargetDir root pth)
          (resolveDuplicate (ensureDirIfPath fs₀ pth (resolveTargetDir root pth))
            (resolveTargetDir root pth) (sanitize f) dup) ≠
        pjoin2 staging (σ k) ∧
      pjoin2 (resolveTargetDir root pth)
          (resolveDuplicate (ensureDirIfPath fs₀ pth (resolveTargetDir root pth))
            (resolveTargetDir root pth) (sanitize f) dup) ≠
        pjoin2 staging (σ k ++ jsonLit)) :
    ∃ fs4 parted',
      runParted root staging now ⟨fs₀, parted₀⟩ (l.map (fun k => (σ k, mk k))) =
        (⟨fs4, parted'⟩,
          List.replicate (n - 1) ((false : Bool), (none : Option Str)) ++
            [((true : Bool), (none : Option Str))]) ∧
      lookupKV fs4 (pjoin2 (resolveTargetDir root pth)
        (resolveDuplicate (ensureDirIfPath fs₀ pth (resolveTargetDir root pth))
          (resolveTargetDir root pth) (sanitize f) dup)) =
        some (Entry.file ((List.range' 1 n).map B).flatten) ∧
      lookupKV parted' f = none := by
  have hlenl : l.length = n := by
    have := hperm.length_eq
    simpa using this
  cases l with
  | nil =>
    rw [List.length_nil] at hlenl
    omega
  | cons k₁ l' =>
    have hstaged1 : ∀ k ∈ List.range' 1 n,
        lookupKV (ensureDirIfPath fs₀ pth (resolveTargetDir root pth))
          (pjoin2 staging (σ k)) = some (Entry.file (B k)) := by
      intro k hk
      rw [lookupKV_ensureDirIfPath_ne _ _ _ _ (hsd k hk)]
      exact hstaged0 k hk
    have hconv : runParted root staging now ⟨fs₀, parted₀⟩
        ((k₁ :: l').map (fun k => (σ k, mk k))) =
        runParted root staging now
          ⟨fs₀, setKV parted₀ f ⟨[], mk k₁, resolveTargetDir root pth, [], now⟩⟩
          ((k₁ :: l').map (fun k => (σ k, mk k))) := by
      rw [show (k₁ :: l').map (fun k => (σ k, mk k)) =
        (σ k₁, mk k₁) :: l'.map (fun k => (σ k, mk k)) from rfl]
      rw [runParted, runParted]
      rw [handlePartedUpload_fresh root staging now f n σ mk pth dup hmk
        ⟨fs₀, parted₀⟩ k₁ hp0]
    obtain ⟨fs4, parted', hrun, hcontent, hnone⟩ :=
      runParted_go root staging now f n σ B mk pth dup hmk
        (ensureDirIfPath fs₀ pth (resolveTargetDir root pth)) (mk k₁)
        (ensureDirIfPath_idem fs₀ pth (resolveTargetDir root pth))
        ((hmk k₁).2.2.2.2) hstaged1 hnet hnef
        (k₁ :: l') [] fs₀
        (setKV parted₀ f ⟨[], mk k₁, resolveTargetDir root pth, [], now⟩)
        (by simp) rfl
        (by rw [List.nil_append]; exact hperm)
        (by rw [lookupKV_setKV, if_pos rfl]; rfl)
    refine ⟨fs4, parted', ?_, hcontent, hnone⟩
    rw [hconv, hrun]
    rw [show (k₁ :: l').length - 1 = n - 1 from by
      rw [hlenl]]

def c2root : Str := "/r".data

def c2staging : Str := "/r/UPLOAD_STAGING_DIR".data

def c2name : Str := "orig.bin".data

def c2sigma : Nat → Str := fun k => if k = 1 then "pa".data else "pb".data

def c2B : Nat → Bytes := fun k => if k = 1 then [1] else [2, 3]

def c2mk : Nat → Meta := fun k =>
  { filename := some ("x".data), useOriginalFilename := some trueLit,
    isPartedUpload := some trueLit, originalFilename := some c2name,
    partNumber := some (natDec k), totalParts := some (natDec 2) }

def c2fs : FS :=
  [(pjoin2 c2staging ("pa".data), Entry.file [1]),
   (pjoin2 c2staging ("pb".data), Entry.file [2, 3])]

/-- Witness for claim C2: the two parts arrive out of order (part 2 first),
the second event triggers the single concatenation, and the final file holds
the parts in part-number order. -/
theorem handlePartedUpload_triggers_once_any_order_witness :
    ∃ fs4 parted',
      runParted c2root c2staging 0 ⟨c2fs, []⟩
        ([2, 1].map (fun k => (c2sigma k, c2mk k))) =
        (⟨fs4, parted'⟩,
          List.replicate (2 - 1) ((false : Bool), (none : Option Str)) ++
            [((true : Bool), (none : Option Str))]) ∧
      lookupKV fs4 (pjoin2 (resolveTargetDir c2root none)
        (resolveDuplicate (ensureDirIfPath c2fs none (resolveTargetDir c2root none))
          (resolveTargetDir c2root none) (sanitize c2name) none)) =
        some (Entry.file ((List.range' 1 2).map c2B).flatten) ∧
      lookupKV parted' c2name = none :=
  handlePartedUpload_triggers_once_any_order c2root c2staging c2fs [] c2name 2
    c2sigma c2B c2mk none none 0 [2, 1] (by decide) (by decide)
    (fun k => ⟨rfl, rfl, rfl, rfl, rfl⟩) rfl (by decide) (by decide) (by decide)
    (by decide)
